import Mathlib

/-!
Verification development for `chatgpt_export_cleaner.py`.

The Python source is shallowly embedded: strings become `List Char` /
`String`, JSON values become the inductive `J`, Python exceptions become
`Except PyErr`, and each Python statement of the core functions is
translated into a total Lean definition.  All definitions are structural
(no well-founded recursion), so concrete runs reduce by `rfl` / `decide`.
-/

namespace ChatGPT

/-- Python `str.isspace` / `str.strip` whitespace: the characters Python 3
strips with no-argument `strip()` (ASCII whitespace, the C1 controls
x1c-x1f, NEL, NBSP and the Unicode space separators). -/
def pyIsSpace (c : Char) : Bool :=
  c == ' ' || c == '\t' || c == '\n' || c == '\x0d' || c == '\x0b' || c == '\x0c' ||
  c == '\x1c' || c == '\x1d' || c == '\x1e' || c == '\x1f' || c == '\x85' ||
  c == '\u00a0' || c == '\u1680' || (0x2000 ≤ c.toNat && c.toNat ≤ 0x200a) ||
  c == '\u2028' || c == '\u2029' || c == '\u202f' || c == '\u205f' || c == '\u3000'

/-- Python `s.strip()`: drop leading and trailing whitespace. -/
def pyStrip (l : List Char) : List Char :=
  (((l.dropWhile pyIsSpace).reverse.dropWhile pyIsSpace)).reverse

/-- `unicodedata.normalize("NFKC", ·)`, restricted to the code points this
development ever feeds it.  Of the characters appearing anywhere in these
definitions and theorems (ASCII, the bullet U+2022, NBSP U+00A0), the only
one with a compatibility decomposition is NBSP, which NFKC maps to an
ordinary space; NFKC is the identity on all the others, acting pointwise. -/
def nfkcChar (c : Char) : Char :=
  if c = '\u00a0' then ' ' else c

/-- NFKC stage of `clean_text` (line 59 of the source). -/
def nfkcL (l : List Char) : List Char := l.map nfkcChar

/-- `s.replace("\r\n", "\n")`: leftmost, non-overlapping, the replacement is
not rescanned (Python `str.replace` semantics). -/
def replCRLF : List Char → List Char
  | [] => []
  | c :: rest =>
    if c = '\x0d' then
      match rest with
      | [] => [c]
      | c2 :: rest2 =>
        if c2 = '\n' then '\n' :: replCRLF rest2
        else c :: replCRLF (c2 :: rest2)
    else c :: replCRLF rest

/-- `s.replace("\r", "\n")`. -/
def replCR : List Char → List Char
  | [] => []
  | c :: rest => (if c = '\x0d' then '\n' else c) :: replCR rest

/-- `s.replace("\t\u2022", "\u2022")` (tab followed by the bullet U+2022). -/
def replTabBullet : List Char → List Char
  | [] => []
  | c :: rest =>
    if c = '\t' then
      match rest with
      | [] => [c]
      | c2 :: rest2 =>
        if c2 = '\u2022' then '\u2022' :: replTabBullet rest2
        else c :: replTabBullet (c2 :: rest2)
    else c :: replTabBullet rest

/-- `s.replace("\t", "    ")` (tab to four spaces). -/
def replTab : List Char → List Char
  | [] => []
  | c :: rest =>
    if c = '\t' then ' ' :: ' ' :: ' ' :: ' ' :: replTab rest
    else c :: replTab rest

/-- `s.replace("\u2022\t", "\u2022 ")` (bullet-tab to bullet-space). -/
def replBulletTab : List Char → List Char
  | [] => []
  | c :: rest =>
    if c = '\u2022' then
      match rest with
      | [] => [c]
      | c2 :: rest2 =>
        if c2 = '\t' then '\u2022' :: ' ' :: replBulletTab rest2
        else c :: replBulletTab (c2 :: rest2)
    else c :: replBulletTab rest

/-- `s.replace("\u2022  ", "\u2022 ")` (bullet and two spaces to bullet and
one). -/
def replBulletTwoSpace : List Char → List Char
  | [] => []
  | c :: rest =>
    if c = '\u2022' then
      match rest with
      | [] => [c]
      | c2 :: rest2 =>
        if c2 = ' ' then
          match rest2 with
          | [] => c :: c2 :: []
          | c3 :: rest3 =>
            if c3 = ' ' then '\u2022' :: ' ' :: replBulletTwoSpace rest3
            else c :: replBulletTwoSpace (c2 :: c3 :: rest3)
        else c :: replBulletTwoSpace (c2 :: rest2)
    else c :: replBulletTwoSpace rest

/-- `s.replace("\u00a0", " ")` (non-breaking space to space). -/
def replNBSP : List Char → List Char
  | [] => []
  | c :: rest => (if c = '\u00a0' then ' ' else c) :: replNBSP rest

/-- `re.sub(r'""+$', '"', s)`: a trailing run of two or more double quotes
collapses to a single double quote. -/
def collapseTrailQuotes (l : List Char) : List Char :=
  let r := l.reverse
  let run := r.takeWhile (fun c => c == '"')
  let rest := r.dropWhile (fun c => c == '"')
  if 2 ≤ run.length then ('"' :: rest).reverse else l

/-- Worker for `re.sub(r"\n{3,}", "\n\n", s)`.  The flag records that two
line feeds of the current newline run have already been emitted, so further
line feeds of the run are dropped. -/
def capNLAux : Bool → List Char → List Char
  | _, [] => []
  | b, c :: rest =>
    if c = '\n' then
      if b then capNLAux true rest
      else
        match rest with
        | [] => ['\n']
        | c2 :: rest2 =>
          if c2 = '\n' then '\n' :: '\n' :: capNLAux true rest2
          else '\n' :: capNLAux false (c2 :: rest2)
    else c :: capNLAux false rest

/-- `re.sub(r"\n{3,}", "\n\n", s)`: every maximal run of three or more line
feeds becomes exactly two; shorter runs are untouched. -/
def capNL (l : List Char) : List Char := capNLAux false l

/-- The list starts or ends with Python whitespace. -/
def hasOuterWS (l : List Char) : Bool :=
  (match l.head? with | some c => pyIsSpace c | none => false) ||
  (match l.getLast? with | some c => pyIsSpace c | none => false)

/-- The list starts with three line feeds. -/
def startsTriple : List Char → Bool
  | '\n' :: '\n' :: '\n' :: _ => true
  | _ => false

/-- Some three consecutive characters of the list are all line feeds. -/
def hasTripleNL : List Char → Bool
  | [] => false
  | c :: rest => startsTriple (c :: rest) || hasTripleNL rest

/-- The whole `clean_text` pipeline on character lists, stages in source
order (lines 59-66): NFKC, line endings, tabs/bullets, NBSP, strip and
trailing-quote collapse, newline-run cap, final strip. -/
def cleanChars (l : List Char) : List Char :=
  pyStrip (capNL (collapseTrailQuotes (pyStrip (replNBSP (replBulletTwoSpace
    (replBulletTab (replTab (replTabBullet (replCR (replCRLF (nfkcL l)))))))))))

/-- `clean_text` of the source on a (non-`None`) string. -/
def clean_text (s : String) : String :=
  String.mk (cleanChars s.data)

/-- `clean_text` including the `None` guard of line 56: absence returns the
empty string. -/
def clean_textOpt : Option String → String
  | none => ""
  | some s => clean_text s

/-! ## JSON values and Python dynamic semantics

`extract_messages_from_mapping` receives arbitrary JSON-decoded data and
accesses it with Python's dynamically-typed operations, which can raise.
`J` is the JSON value type (numbers are modelled as integers: no claim
depends on fractional values), `PyErr` the exceptions the source can hit. -/

inductive J where
  | null : J
  | bool : Bool → J
  | num : Int → J
  | str : String → J
  | arr : List J → J
  | obj : List (String × J) → J
deriving Repr

inductive PyErr where
  | typeError : PyErr
  | attributeError : PyErr
  | keyError : PyErr
  | indexError : PyErr
deriving Repr, DecidableEq

/-- Python truthiness of a JSON value (`None`, `False`, `0`, `""`, `[]`,
`{}` are falsy). -/
def truthy : J → Bool
  | .null => false
  | .bool b => b
  | .num n => n != 0
  | .str s => s != ""
  | .arr l => !l.isEmpty
  | .obj l => !l.isEmpty

/-- Python hashability of a JSON value: lists and dicts are unhashable. -/
def hashable : J → Bool
  | .arr _ => false
  | .obj _ => false
  | _ => true

/-- First value bound to a key in an object's field list (Python dicts have
unique keys, so the first binding is the binding). -/
def jLookup : List (String × J) → String → Option J
  | [], _ => none
  | (k, v) :: rest, key => if k == key then some v else jLookup rest key

/-- `jLookup` with a default. -/
def jLookupD (fs : List (String × J)) (key : String) (d : J) : J :=
  match jLookup fs key with
  | some v => v
  | none => d

mutual

/-- Python `==` between JSON values.  `True == 1` and `False == 0` hold
(bool is an int in Python); values of otherwise different types are
unequal; lists compare elementwise; dicts compare by size and key lookup,
which under unique keys is Python's unordered dict equality. -/
def pyEq : J → J → Bool
  | .null, .null => true
  | .bool a, .bool b => a == b
  | .bool a, .num n => n == (if a then (1 : Int) else 0)
  | .num n, .bool b => n == (if b then (1 : Int) else 0)
  | .num a, .num b => a == b
  | .str a, .str b => a == b
  | .arr xs, .arr ys => pyEqList xs ys
  | .obj xs, .obj ys => xs.length == ys.length && pyEqFields xs ys
  | _, _ => false

/-- Elementwise Python `==` of two JSON lists. -/
def pyEqList : List J → List J → Bool
  | [], [] => true
  | x :: xs, y :: ys => pyEq x y && pyEqList xs ys
  | _, _ => false

/-- Every field of the first object matches a field of the second under
Python `==`. -/
def pyEqFields : List (String × J) → List (String × J) → Bool
  | [], _ => true
  | (k, v) :: xs, ys =>
      (match jLookup ys k with
       | some w => pyEq v w
       | none => false) && pyEqFields xs ys

end

/-- Python `v.get(key, default)`: only dicts have `.get`; any other value
raises `AttributeError`. -/
def pyGetD (v : J) (key : String) (d : J) : Except PyErr J :=
  match v with
  | .obj fs => .ok (jLookupD fs key d)
  | _ => .error .attributeError

/-- `pat` is a prefix of `l` (Boolean). -/
def isPrefixB : List Char → List Char → Bool
  | [], _ => true
  | _ :: _, [] => false
  | a :: as, b :: bs => a == b && isPrefixB as bs

/-- `pat` occurs contiguously inside `l` (Boolean substring test). -/
def isSubstring (pat : List Char) : List Char → Bool
  | [] => isPrefixB pat []
  | c :: rest => isPrefixB pat (c :: rest) || isSubstring pat rest

/-- Python `x in v` for the container `v`: dict membership hashes `x` first
(unhashable `x` raises) and compares against the keys; list membership
scans with `==`; string membership is the substring test and needs a
string on the left; `in` on any other value raises `TypeError`. -/
def pyContains (v : J) (x : J) : Except PyErr Bool :=
  match v with
  | .obj fs =>
      if hashable x then .ok (fs.any (fun kv => pyEq x (.str kv.1))) else .error .typeError
  | .arr xs => .ok (xs.any (fun e => pyEq x e))
  | .str s =>
      match x with
      | .str t => .ok (isSubstring t.data s.data)
      | _ => .error .typeError
  | _ => .error .typeError

/-- Python list indexing `xs[i]` with negative indices counted from the
end; out of range raises `IndexError`. -/
def pyIndex (xs : List J) (i : Int) : Except PyErr J :=
  if h : 0 ≤ i ∧ i.toNat < xs.length then .ok (xs.get ⟨i.toNat, h.2⟩)
  else if h' : i < 0 ∧ 0 ≤ i + xs.length ∧ (i + xs.length).toNat < xs.length then
    .ok (xs.get ⟨(i + xs.length).toNat, h'.2.2⟩)
  else .error .indexError

/-- Python subscription `v[x]`: dict lookup (missing key raises `KeyError`,
unhashable key `TypeError`), list indexing by an int or a bool, string
indexing by an int or a bool (yielding a one-character string). -/
def pySubscript (v : J) (x : J) : Except PyErr J :=
  match v with
  | .obj fs =>
      match x with
      | .str s =>
          match jLookup fs s with
          | some w => .ok w
          | none => .error .keyError
      | .arr _ => .error .typeError
      | .obj _ => .error .typeError
      | _ => .error .keyError
  | .arr xs =>
      match x with
      | .num i => pyIndex xs i
      | .bool b => pyIndex xs (if b then 1 else 0)
      | _ => .error .typeError
  | .str s =>
      match x with
      | .num i =>
          match pyIndex (s.data.map (fun c => .str (String.mk [c]))) i with
          | .ok w => .ok w
          | .error _ => .error .indexError
      | .bool b =>
          match pyIndex (s.data.map (fun c => .str (String.mk [c]))) (if b then 1 else 0) with
          | .ok w => .ok w
          | .error _ => .error .indexError
      | _ => .error .typeError
  | _ => .error .typeError

/-- Python `x not in seen` for the `set` `seen` (modelled as the list of
its elements): adding to or probing a set hashes `x`, so an unhashable `x`
raises `TypeError`. Returns `true` when `x` is NOT in the set. -/
def pyNotInSet (seen : List J) (x : J) : Except PyErr Bool :=
  if hashable x then .ok (!(seen.any (fun e => pyEq x e))) else .error .typeError

/-- Python iteration `for p in v`: lists yield their elements, strings
their characters as one-character strings, dicts their keys; iterating any
other value raises `TypeError` (only truthy non-iterables reach this in
the source, since falsy `parts` is replaced by `[]`). -/
def pyIter : J → Except PyErr (List J)
  | .arr xs => .ok xs
  | .str s => .ok (s.data.map (fun c => .str (String.mk [c])))
  | .obj fs => .ok (fs.map (fun kv => .str kv.1))
  | _ => .error .typeError

/-- The string payloads of a chunk list, or `none` if some chunk is not a
string. -/
def asStrings : List J → Option (List String)
  | [] => some []
  | .str s :: rest =>
      match asStrings rest with
      | some l => some (s :: l)
      | none => none
  | _ => none

/-- Python `"\n".join(chunks)`: raises `TypeError` when a chunk is not a
string. -/
def pyJoinNL (chunks : List J) : Except PyErr String :=
  match asStrings chunks with
  | some l => .ok (String.intercalate "\n" l)
  | none => .error .typeError

/-! ## The extractor -/

/-- An entry of the extractor's output: `{"role": ..., "text": ...}`. -/
structure Msg where
  role : String
  text : String
deriving Repr, DecidableEq

/-- An entry of `messages_to_pairs`' output:
`{"prompt": ..., "completion": ...}`. -/
structure Pair where
  prompt : String
  completion : String
deriving Repr, DecidableEq

/-- The `while` loop of `extract_messages_from_mapping` (lines 89-93):
from `current`, repeatedly look the identifier up, record the node and
step to its parent; stop on a falsy identifier, an identifier not in the
mapping, or one already seen.  The result pairs each visited identifier
with its node, in visit order (leaf first; the source keeps only the
nodes and reverses them afterwards).  The loop state `seen` is the
source's `seen` set.  `fuel` bounds the number of iterations; it is
consumed only after all three guards pass, and `extract_messages_from_mapping`
supplies more fuel than the guards ever let the loop run, so the fuel-out
branch is unreachable there (the stabilisation theorem below proves the
result is fuel-independent for node mappings). -/
def walk (mapping : J) : Nat → J → List J → Except PyErr (List (J × J))
  | fuel, current, seen =>
    if truthy current = false then .ok []
    else
      match pyContains mapping current with
      | .error e => .error e
      | .ok false => .ok []
      | .ok true =>
        match pyNotInSet seen current with
        | .error e => .error e
        | .ok false => .ok []
        | .ok true =>
          match fuel with
          | 0 => .ok []
          | fuel' + 1 =>
            match pySubscript mapping current with
            | .error e => .error e
            | .ok node =>
              match pyGetD node "parent" .null with
              | .error e => .error e
              | .ok parent =>
                match walk mapping fuel' parent (current :: seen) with
                | .error e => .error e
                | .ok rest => .ok ((current, node) :: rest)

/-- Fuel `extract_messages_from_mapping` hands to `walk`: one more than
the number of entries of the mapping (for a dict, its keys; for a list,
its elements; `walk` runs at most one iteration per distinct entry). -/
def universeLen : J → Nat
  | .obj fs => fs.length
  | .arr xs => xs.length
  | _ => 0

/-- Lines 104-106 of the source: `(m.get("author") or {}).get("role", "")`
followed by the `tool` / `ChatGPT` remapping to `assistant`. -/
def resolveAuthor (m : J) : Except PyErr J :=
  match pyGetD m "author" .null with
  | .error e => .error e
  | .ok a =>
    match pyGetD (if truthy a then a else .obj []) "role" (.str "") with
    | .error e => .error e
    | .ok role0 =>
      .ok (if pyEq role0 (.str "tool") || pyEq role0 (.str "ChatGPT")
           then .str "assistant" else role0)

/-- One content part's contribution to `chunks` (lines 123-130): a plain
string is kept when `p.strip()` is truthy (it has a character that is not
whitespace); a dict contributes its `"text"` value when that value is
truthy (the `audio_transcription` branch repeats the same truthiness test
of `p.get("text")` after the first already failed, so it never fires);
every other shape contributes nothing. -/
def partChunk : J → Option J
  | .str s => if s.data.any (fun c => !pyIsSpace c) then some (.str s) else none
  | .obj fs =>
      let t := jLookupD fs "text" .null
      if truthy t then some t
      else if pyEq (jLookupD fs "content_type" .null) (.str "audio_transcription")
              && truthy t then some t
      else none
  | _ => none

/-- The chunk list collected from the iterated content parts
(lines 120-130). -/
def flattenChunks (parts : List J) : List J :=
  parts.filterMap partChunk

/-- Lines 109-137 for one truthy message payload `m` with resolved author
`author`: the system-message skip, the content-type filter, part
flattening, joining, cleaning, role assignment.  `.ok none` is the
source's `continue`. -/
def processPayloadWithAuthor (m author : J) : Except PyErr (Option Msg) :=
    -- line 109: `author == "system" and not (m.get("metadata") or {}).get(...)`
    match
      (if pyEq author (.str "system") then
        match pyGetD m "metadata" .null with
        | .error e => .error e
        | .ok md =>
          match pyGetD (if truthy md then md else .obj []) "is_user_system_message" .null with
          | .error e => .error e
          | .ok flag => .ok (!truthy flag)
      else .ok false : Except PyErr Bool)
    with
    | .error e => .error e
    | .ok skip =>
      if skip then .ok none
      else
        match pyGetD m "content" .null with
        | .error e => .error e
        | .ok c0 =>
          match pyGetD (if truthy c0 then c0 else .obj []) "content_type" .null with
          | .error e => .error e
          | .ok ctype =>
            if (pyEq ctype (.str "text") || pyEq ctype (.str "multimodal_text")) = false
            then .ok none
            else
              match pyGetD (if truthy c0 then c0 else .obj []) "parts" .null with
              | .error e => .error e
              | .ok p0 =>
                match pyIter (if truthy p0 then p0 else .arr []) with
                | .error e => .error e
                | .ok elems =>
                  match pyJoinNL (flattenChunks elems) with
                  | .error e => .error e
                  | .ok joined =>
                    if clean_text joined = "" then .ok none
                    else
                      .ok (some ⟨if pyEq author (.str "assistant")
                                 then "assistant" else "user", clean_text joined⟩)

/-- Processing of one message payload `m = node.get("message")`, already
known truthy (lines 104-137): resolve the author, then run the rest. -/
def processPayload (m : J) : Except PyErr (Option Msg) :=
  match resolveAuthor m with
  | .error e => .error e
  | .ok author => processPayloadWithAuthor m author

/-- Lines 99-101 and 104-137 for one traversed node: skip a falsy
`node.get("message")`, otherwise process the payload. -/
def processNode (node : J) : Except PyErr (Option Msg) :=
  match pyGetD node "message" .null with
  | .error e => .error e
  | .ok m => if truthy m then processPayload m else .ok none

/-- The `for node in ordered_nodes` loop (lines 98-137). -/
def processNodes : List J → Except PyErr (List Msg)
  | [] => .ok []
  | n :: rest =>
    match processNode n with
    | .error e => .error e
    | .ok o =>
      match processNodes rest with
      | .error e => .error e
      | .ok ms => .ok (match o with | some m => m :: ms | none => ms)

/-- `extract_messages_from_mapping(conv)` (lines 68-139): read `mapping`
and `current_node`, run the traversal, reverse to root-to-leaf order,
and process each node. -/
def extract_messages_from_mapping (conv : J) : Except PyErr (List Msg) :=
  match pyGetD conv "mapping" (.obj []) with
  | .error e => .error e
  | .ok mapping =>
    match pyGetD conv "current_node" .null with
    | .error e => .error e
    | .ok current =>
      match walk mapping (universeLen mapping + 1) current [] with
      | .error e => .error e
      | .ok ns => processNodes ((ns.map Prod.snd).reverse)

/-! ## The pair builder and the filename sanitizer -/

/-- The loop of `messages_to_pairs` (lines 157-169), with the pending
user texts as the accumulator `buffer`. -/
def pairsAux (buffer : List String) : List Msg → List Pair
  | [] => []
  | m :: rest =>
    if m.role = "user" then
      pairsAux (if m.text ≠ "" then buffer ++ [m.text] else buffer) rest
    else
      if buffer ≠ [] ∧ m.text ≠ "" then
        -- prompt = "\n\n".join(buffer_user), completion = m["text"]
        if String.intercalate "\n\n" buffer ≠ "" ∧ m.text ≠ "" then
          ⟨String.intercalate "\n\n" buffer, m.text⟩ :: pairsAux [] rest
        else pairsAux [] rest
      else pairsAux [] rest

/-- `messages_to_pairs(messages)` (lines 141-171). -/
def messages_to_pairs (messages : List Msg) : List Pair :=
  pairsAux [] messages

/-- Python's `\w` word characters, as the source uses them on conversation
titles (letters, digits, underscore; the ASCII fragment of the Unicode
class — no theorem below depends on which letters count as word
characters). -/
def isWordChar (c : Char) : Bool :=
  c.isAlphanum || c == '_'

/-- A character the sanitizer keeps: `[^\w\-. ]` is replaced, so word
characters, hyphen, period and space survive. -/
def keepChar (c : Char) : Bool :=
  isWordChar c || c == '-' || c == '.' || c == ' '

/-- `re.sub(r"[^\w\-. ]+", "_", title)`: every maximal run of characters
outside the kept set becomes one underscore.  The flag records that the
previous character was part of such a run (its underscore is already
emitted). -/
def subBadRuns : Bool → List Char → List Char
  | _, [] => []
  | inRun, c :: rest =>
    if keepChar c then c :: subBadRuns false rest
    else if inRun then subBadRuns true rest
    else '_' :: subBadRuns true rest

/-- `sanitize_filename(title, max_length)` (lines 174-189): substitute
invalid runs, truncate to `max_length` (Python `[:max_length]` for the
non-negative lengths the tool uses), strip, and fall back to
`"conversation"` when empty. -/
def sanitize_filename (title : String) (max_length : Nat := 120) : String :=
  let safe := pyStrip ((subBadRuns false title.data).take max_length)
  if safe.isEmpty then "conversation" else String.mk safe

/-- The run did not raise. -/
def isOkE {α : Type} : Except PyErr α → Bool
  | .ok _ => true
  | .error _ => false

/-- Number of keys of a node mapping not yet covered by the `seen` set
(under Python `==`, as the loop guard compares): the measure the traversal
strictly decreases, bounding its iteration count. -/
def unseenKeys (fs : List (String × J)) (seen : List J) : Nat :=
  ((fs.map (fun kv => J.str kv.1)).filter
    (fun u => !(seen.any (fun e => pyEq u e)))).length

/-! ## Definitions written from the spec's words (for refinement claims) -/

/-- The content-part rule as claim C3 words it: a plain NON-EMPTY string is
taken verbatim; a structured part with a truthy (non-empty) `text` field
contributes that text; all other shapes contribute nothing. -/
def partChunkClaimed : J → Option J
  | .str s => if s ≠ "" then some (.str s) else none
  | .obj fs =>
      let t := jLookupD fs "text" .null
      if truthy t then some t else none
  | _ => none

/-- The content-part rule the source actually implements, worded as the
amended claim: a plain string is kept (verbatim) exactly when it contains
at least one non-whitespace character (`p.strip()` is truthy); a
structured part with a truthy `text` field contributes that value; all
other shapes contribute nothing. -/
def partChunkSpec : J → Option J
  | .str s => if s.data.any (fun c => !pyIsSpace c) then some (.str s) else none
  | .obj fs =>
      let t := jLookupD fs "text" .null
      if truthy t then some t else none
  | _ => none

/-! ## Well-formedness: the shape under which the extractor cannot raise
(the amended claim C2).  Each predicate names the JSON type Python's
operations need at that spot. -/

/-- A truthy `text` field of a structured part must be a string, or
`"\n".join` raises. -/
def wfText (t : J) : Bool :=
  !truthy t || (match t with | .str _ => true | _ => false)

/-- A structured content part is safe when its `text` value, if truthy, is
a string; non-dict parts are always safe (skipped or transcribed). -/
def wfPart : J → Bool
  | .obj fs => wfText (jLookupD fs "text" .null)
  | _ => true

/-- The `parts` value must be falsy or iterable, and a parts list must hold
safe parts (string and dict iteration yield strings, hence are safe). -/
def wfParts : J → Bool
  | .arr xs => xs.all wfPart
  | .num n => n == 0
  | .bool b => !b
  | _ => true

/-- A truthy `content` must be a dict with safe `parts`. -/
def wfContent (c : J) : Bool :=
  !truthy c || (match c with | .obj fs => wfParts (jLookupD fs "parts" .null) | _ => false)

/-- A truthy field read with `.get` (author, metadata) must be a dict. -/
def wfDict (v : J) : Bool :=
  !truthy v || (match v with | .obj _ => true | _ => false)

/-- A truthy message payload must be a dict with dict-or-falsy `author` and
`metadata` and well-formed `content`. -/
def wfPayload (m : J) : Bool :=
  !truthy m || (match m with
    | .obj fs =>
        wfDict (jLookupD fs "author" .null) && wfDict (jLookupD fs "metadata" .null)
          && wfContent (jLookupD fs "content" .null)
    | _ => false)

/-- A node must be a dict whose `parent` is hashable and whose `message`
payload is well-formed. -/
def wfNode : J → Bool
  | .obj fs => hashable (jLookupD fs "parent" .null) && wfPayload (jLookupD fs "message" .null)
  | _ => false

/-- A conversation under which `extract_messages_from_mapping` cannot
raise: a dict whose `mapping` is a dict of well-formed nodes and whose
`current_node` is hashable. -/
def wfConv : J → Bool
  | .obj fs =>
      (match jLookupD fs "mapping" (.obj []) with
       | .obj mfs => mfs.all (fun kv => wfNode kv.2)
       | _ => false) && hashable (jLookupD fs "current_node" .null)
  | _ => false

/-! ## Concrete inputs used by counterexamples and witnesses -/

/-- A conversation whose only message carries the odd-shaped content part
`{"text": 5}`: `p.get("text")` is truthy, `5` lands in `chunks`, and
`"\n".join(chunks)` raises `TypeError`. -/
def oddPartConv : J :=
  .obj [
    ("mapping", .obj [
      ("A", .obj [("message", .obj [
        ("author", .obj [("role", .str "user")]),
        ("content", .obj [("content_type", .str "text"),
                          ("parts", .arr [.obj [("text", .num 5)]])])])])]),
    ("current_node", .str "A")]

/-- A small well-formed two-node conversation (the spec's first end-to-end
scenario). -/
def demoConv : J :=
  .obj [
    ("mapping", .obj [
      ("A", .obj [("parent", .null), ("message", .obj [
        ("author", .obj [("role", .str "user")]),
        ("content", .obj [("content_type", .str "text"), ("parts", .arr [.str "Hi"])])])]),
      ("B", .obj [("parent", .str "A"), ("message", .obj [
        ("author", .obj [("role", .str "assistant")]),
        ("content", .obj [("content_type", .str "text"), ("parts", .arr [.str "Hello!"])])])])]),
    ("current_node", .str "B")]

/-- A two-node mapping whose parent links form a cycle: A's parent is B and
B's parent is A. -/
def cycleFields : List (String × J) :=
  [("A", .obj [("parent", .str "B")]),
   ("B", .obj [("parent", .str "A")])]

/-- A message payload authored by `tool`, which the extractor remaps to
`assistant`. -/
def toolPayload : J :=
  .obj [
    ("author", .obj [("role", .str "tool")]),
    ("content", .obj [("content_type", .str "text"), ("parts", .arr [.str "hi"])])]

end ChatGPT

/-! # Theorems -/

namespace ChatGPT

/-- Every pair `pairsAux` emits, from any buffer state, has a non-empty
prompt and completion: the emission guard checks both. -/
theorem pairsAux_nonempty :
    ∀ (msgs : List Msg) (buffer : List String) (p : Pair),
      p ∈ pairsAux buffer msgs → p.prompt ≠ "" ∧ p.completion ≠ "" := by
  intro msgs
  induction msgs with
  | nil => intro buffer p hp; simp [pairsAux] at hp
  | cons m rest ih =>
    intro buffer p hp
    simp only [pairsAux] at hp
    split at hp
    · exact ih _ p hp
    · split at hp
      · split at hp
        · rcases List.mem_cons.mp hp with h | h
          · subst h
            rename_i hguard
            exact hguard
          · exact ih _ p h
        · exact ih _ p hp
      · exact ih _ p hp

/-- C6: every pair emitted by `messages_to_pairs` has a non-empty `prompt`
and a non-empty `completion`. -/
theorem messages_to_pairs_nonempty (msgs : List Msg) (p : Pair)
    (hp : p ∈ messages_to_pairs msgs) : p.prompt ≠ "" ∧ p.completion ≠ "" :=
  pairsAux_nonempty msgs [] p hp

/-- Witness for C6 at the spec's first scenario. -/
theorem messages_to_pairs_nonempty_witness :
    (⟨"Hi", "Hello!"⟩ : Pair) ∈ messages_to_pairs [⟨"user", "Hi"⟩, ⟨"assistant", "Hello!"⟩] ∧
      (⟨"Hi", "Hello!"⟩ : Pair).prompt ≠ "" ∧ (⟨"Hi", "Hello!"⟩ : Pair).completion ≠ "" :=
  ⟨by decide, messages_to_pairs_nonempty [⟨"user", "Hi"⟩, ⟨"assistant", "Hello!"⟩] _ (by decide)⟩

/-- `pairsAux` only looks at whether a role equals `"user"`: normalising
every other role to `"assistant"` changes nothing, from any buffer. -/
theorem pairsAux_role_binary :
    ∀ (msgs : List Msg) (buffer : List String),
      pairsAux buffer (msgs.map (fun m => ⟨if m.role = "user" then "user" else "assistant", m.text⟩))
        = pairsAux buffer msgs := by
  intro msgs
  induction msgs with
  | nil => intro buffer; rfl
  | cons m rest ih =>
    intro buffer
    by_cases hr : m.role = "user" <;>
      simp [pairsAux, hr, ih]

/-- C10: `messages_to_pairs` distinguishes only whether a message's role
equals the exact string `"user"`; every message with any other role value
(`"system"`, `"tool"`, ...) is handled exactly as an assistant turn, so
normalising all non-`"user"` roles to `"assistant"` leaves the output
unchanged (in particular such a message's text may be emitted as a
completion and the pending user buffer is always cleared on it). -/
theorem messages_to_pairs_role_binary (msgs : List Msg) :
    messages_to_pairs
        (msgs.map (fun m => ⟨if m.role = "user" then "user" else "assistant", m.text⟩))
      = messages_to_pairs msgs :=
  pairsAux_role_binary msgs []

/-- `pyStrip` never lengthens a list. -/
theorem length_pyStrip_le (l : List Char) : (pyStrip l).length ≤ l.length := by
  unfold pyStrip
  calc ((l.dropWhile pyIsSpace).reverse.dropWhile pyIsSpace).reverse.length
      = ((l.dropWhile pyIsSpace).reverse.dropWhile pyIsSpace).length := by
        simp
    _ ≤ (l.dropWhile pyIsSpace).reverse.length :=
        List.IsSuffix.length_le (List.dropWhile_suffix pyIsSpace)
    _ = (l.dropWhile pyIsSpace).length := by simp
    _ ≤ l.length := List.IsSuffix.length_le (List.dropWhile_suffix pyIsSpace)

/-- C9: `sanitize_filename` always returns a non-empty string of length at
most `max max_length 12`: the truncation bounds the normal result by
`max_length`, and the 12-character fallback `"conversation"` is returned
untruncated when substitution, truncation and stripping leave nothing. -/
theorem sanitize_filename_bounds (title : String) (max_length : Nat) :
    sanitize_filename title max_length ≠ "" ∧
      (sanitize_filename title max_length).length ≤ max max_length 12 := by
  have hval : sanitize_filename title max_length
      = if (pyStrip ((subBadRuns false title.data).take max_length)).isEmpty
        then "conversation"
        else String.mk (pyStrip ((subBadRuns false title.data).take max_length)) := rfl
  rw [hval]
  by_cases hse : (pyStrip ((subBadRuns false title.data).take max_length)).isEmpty
  · rw [if_pos hse]
    refine ⟨by decide, ?_⟩
    rw [show ("conversation" : String).length = 12 from rfl]
    exact le_max_right _ _
  · rw [if_neg hse]
    constructor
    · intro h
      have hdata : pyStrip ((subBadRuns false title.data).take max_length) = [] :=
        congrArg String.data h
      rw [hdata] at hse
      simp at hse
    · rw [String.length_mk]
      have h1 : (pyStrip ((subBadRuns false title.data).take max_length)).length
          ≤ ((subBadRuns false title.data).take max_length).length :=
        length_pyStrip_le _
      have h2 : ((subBadRuns false title.data).take max_length).length ≤ max_length := by
        rw [List.length_take]; exact min_le_left _ _
      exact le_trans (le_trans h1 h2) (le_max_left _ _)

/-- C8 counterexample: on `"word1\r\nword2\r\r\rword3"` the line-ending
canonicalisation alone (CRLF then CR replacement, before any newline-run
collapsing) does NOT produce `"word1\nword2\n\nword3"`. -/
theorem canon_c8_counterexample :
    String.mk (replCR (replCRLF ("word1\x0d\nword2\x0d\x0d\x0dword3").data))
      ≠ "word1\nword2\n\nword3" := by
  decide

/-- C8 amended: canonicalisation of `"word1\r\nword2\r\r\rword3"` turns the
three bare CRs into THREE line feeds, giving `"word1\nword2\n\n\nword3"`;
the later newline-run collapse then caps them to two (it does change the
string), and `clean_text` of the input equals `"word1\nword2\n\nword3"`. -/
theorem canon_c8_amended :
    String.mk (replCR (replCRLF ("word1\x0d\nword2\x0d\x0d\x0dword3").data))
        = "word1\nword2\n\n\nword3" ∧
      String.mk (capNL (replCR (replCRLF ("word1\x0d\nword2\x0d\x0d\x0dword3").data)))
        = "word1\nword2\n\nword3" ∧
      clean_text "word1\x0d\nword2\x0d\x0d\x0dword3" = "word1\nword2\n\nword3" :=
  ⟨rfl, rfl, rfl⟩

/-- C3 counterexample: the part `" "` is a plain NON-EMPTY string, so the
claimed rule keeps it as a chunk, but the source's flattening drops it
(`p.strip()` is falsy): the chunk lists differ at this input. -/
theorem flatten_c3_counterexample :
    flattenChunks [J.str " "] = [] ∧
      List.filterMap partChunkClaimed [J.str " "] = [J.str " "] ∧
      ([] : List J) ≠ [J.str " "] :=
  ⟨rfl, rfl, fun h => List.noConfusion h⟩

/-- C3 amended: the flattening keeps a plain string verbatim exactly when
it contains a non-whitespace character (not merely when non-empty); a
structured part with a truthy `text` field contributes that value; all
other shapes contribute nothing — chunk for chunk, `flattenChunks` is
`filterMap` of that rule (the chunks are then joined with one newline). -/
theorem flattenChunks_eq_spec (parts : List J) :
    flattenChunks parts = parts.filterMap partChunkSpec := by
  unfold flattenChunks
  refine List.filterMap_congr ?_
  intro p _
  cases p with
  | obj fs =>
    simp only [partChunk, partChunkSpec]
    by_cases ht : truthy (jLookupD fs "text" J.null) <;> simp [ht]
  | null => rfl
  | bool b => rfl
  | num n => rfl
  | str s => rfl
  | arr xs => rfl

/-- A message emitted from payload `m` under resolved author `author`
carries exactly the role the final conditional computes. -/
theorem role_of_processPayloadWithAuthor (m author : J) (msg : Msg)
    (hp : processPayloadWithAuthor m author = .ok (some msg)) :
    msg.role = if pyEq author (.str "assistant") then "assistant" else "user" := by
  unfold processPayloadWithAuthor at hp
  repeat' split at hp
  all_goals try simp_all
  all_goals exact (congrArg Msg.role hp).symm

/-- C7: a message the extractor emits has role `"assistant"` exactly when
the resolved author (post `tool`/`ChatGPT` remapping) is `"assistant"`,
and role `"user"` for every other author value (flagged system messages
included): the emitted role is literally that conditional. -/
theorem role_assignment (m a : J) (msg : Msg)
    (ha : resolveAuthor m = .ok a) (hp : processPayload m = .ok (some msg)) :
    msg.role = if pyEq a (.str "assistant") then "assistant" else "user" := by
  apply role_of_processPayloadWithAuthor m a msg
  unfold processPayload at hp
  rw [ha] at hp
  exact hp

/-- Witness for C7: a `tool`-authored payload resolves to `assistant` and
is emitted with role `"assistant"`. -/
theorem role_assignment_witness :
    resolveAuthor toolPayload = .ok (.str "assistant") ∧
      processPayload toolPayload = .ok (some ⟨"assistant", "hi"⟩) ∧
      (⟨"assistant", "hi"⟩ : Msg).role
        = if pyEq (.str "assistant") (.str "assistant") then "assistant" else "user" :=
  ⟨rfl, rfl, role_assignment toolPayload (.str "assistant") ⟨"assistant", "hi"⟩ rfl rfl⟩

/-! ### Traversal lemmas (C5) -/

/-- A value Python-equal to a string is that string. -/
theorem pyEq_str_inv (x : J) (k : String) (h : pyEq x (.str k) = true) : x = .str k := by
  cases x <;> simp_all [pyEq]

/-- Python equality is reflexive on hashable (scalar) values. -/
theorem pyEq_refl_hashable (x : J) (h : hashable x = true) : pyEq x x = true := by
  cases x <;> simp_all [pyEq, hashable]

/-- Membership `ok true` on a dict means the probe was hashable and
Python-equal to some key. -/
theorem pyContains_obj_true (fs : List (String × J)) (cur : J)
    (h : pyContains (.obj fs) cur = .ok true) :
    hashable cur = true ∧ fs.any (fun kv => pyEq cur (.str kv.1)) = true := by
  by_cases hh : hashable cur = true <;> simp_all [pyContains]

/-- A passed set-absence check means the probe was hashable and matches no
element of the set. -/
theorem pyNotInSet_true (seen : List J) (cur : J)
    (h : pyNotInSet seen cur = .ok true) :
    hashable cur = true ∧ seen.any (fun e => pyEq cur e) = false := by
  by_cases hh : hashable cur = true <;> simp_all [pyNotInSet]

/-- Filtering with a pointwise-stronger predicate keeps at most as many
elements. -/
theorem length_filter_mono {α : Type} (p q : α → Bool) (h : ∀ u, p u = true → q u = true) :
    ∀ l : List α, (l.filter p).length ≤ (l.filter q).length := by
  intro l
  induction l with
  | nil => simp
  | cons a l ih =>
    by_cases hp : p a = true
    · rw [List.filter_cons_of_pos hp, List.filter_cons_of_pos (h a hp)]
      simpa using ih
    · rw [List.filter_cons_of_neg (by simpa using hp)]
      by_cases hq : q a = true
      · rw [List.filter_cons_of_pos hq]
        exact le_trans ih (Nat.le_succ _)
      · rw [List.filter_cons_of_neg (by simpa using hq)]
        exact ih

/-- Filtering with a pointwise-stronger predicate that moreover loses a
held element keeps strictly fewer elements. -/
theorem length_filter_lt {α : Type} (p q : α → Bool) (h : ∀ u, p u = true → q u = true)
    (u₀ : α) :
    ∀ l : List α, u₀ ∈ l → q u₀ = true → p u₀ = false →
      (l.filter p).length < (l.filter q).length := by
  intro l
  induction l with
  | nil => intro hm; simp at hm
  | cons a l ih =>
    intro hm hq0 hp0
    rcases List.mem_cons.mp hm with rfl | hm'
    · rw [List.filter_cons_of_neg (by simp [hp0]), List.filter_cons_of_pos hq0]
      exact Nat.lt_succ_of_le (length_filter_mono p q h l)
    · by_cases hp : p a = true
      · rw [List.filter_cons_of_pos hp, List.filter_cons_of_pos (h a hp)]
        simpa using ih hm' hq0 hp0
      · rw [List.filter_cons_of_neg (by simpa using hp)]
        by_cases hq : q a = true
        · rw [List.filter_cons_of_pos hq]
          exact Nat.lt_succ_of_le (le_of_lt (ih hm' hq0 hp0))
        · rw [List.filter_cons_of_neg (by simpa using hq)]
          exact ih hm' hq0 hp0

/-- Passing all three loop guards strictly shrinks the unseen-key count. -/
theorem unseenKeys_cons_lt (fs : List (String × J)) (cur : J) (seen : List J)
    (hh : hashable cur = true)
    (hmem : fs.any (fun kv => pyEq cur (.str kv.1)) = true)
    (hseen : seen.any (fun e => pyEq cur e) = false) :
    unseenKeys fs (cur :: seen) < unseenKeys fs seen := by
  obtain ⟨kv, hkv, hpe⟩ := List.any_eq_true.mp hmem
  have hcur : cur = .str kv.1 := pyEq_str_inv _ _ hpe
  subst hcur
  unfold unseenKeys
  refine length_filter_lt _ _ ?_ (J.str kv.1) _ (List.mem_map_of_mem _ hkv) ?_ ?_
  · intro u hu
    simp only [List.any_cons, Bool.not_eq_true', Bool.or_eq_false_iff] at hu
    simp [hu.2]
  · simp [hseen]
  · simp [List.any_cons, pyEq_refl_hashable _ hh]

/-- Guards passing forces at least one unseen key. -/
theorem unseenKeys_pos (fs : List (String × J)) (cur : J) (seen : List J)
    (hmem : fs.any (fun kv => pyEq cur (.str kv.1)) = true)
    (hseen : seen.any (fun e => pyEq cur e) = false) :
    0 < unseenKeys fs seen := by
  obtain ⟨kv, hkv, hpe⟩ := List.any_eq_true.mp hmem
  have hcur : cur = .str kv.1 := pyEq_str_inv _ _ hpe
  subst hcur
  have hmem' : J.str kv.1 ∈ (fs.map (fun kv => J.str kv.1)).filter
      (fun u => !(seen.any (fun e => pyEq u e))) := by
    rw [List.mem_filter]
    exact ⟨List.mem_map_of_mem _ hkv, by simp [hseen]⟩
  unfold unseenKeys
  exact List.length_pos.mpr (List.ne_nil_of_mem hmem')

/-- With fuel at least the unseen-key count, one more unit of fuel changes
nothing: the traversal has already stopped. -/
theorem walk_stable (fs : List (String × J)) :
    ∀ (fuel : Nat) (cur : J) (seen : List J), unseenKeys fs seen ≤ fuel →
      walk (.obj fs) (fuel + 1) cur seen = walk (.obj fs) fuel cur seen := by
  intro fuel
  induction fuel with
  | zero =>
    intro cur seen hle
    conv_lhs => rw [walk]
    conv_rhs => rw [walk]
    by_cases ht : truthy cur = false
    · simp [ht]
    · have ht' : truthy cur = true := by revert ht; cases truthy cur <;> simp
      cases hc : pyContains (.obj fs) cur with
      | error e => simp [ht', hc]
      | ok b =>
        cases b with
        | false => simp [ht', hc]
        | true =>
          cases hn : pyNotInSet seen cur with
          | error e => simp [ht', hc, hn]
          | ok nb =>
            cases nb with
            | false => simp [ht', hc, hn]
            | true =>
              obtain ⟨_, hany⟩ := pyContains_obj_true fs cur hc
              obtain ⟨_, hseen⟩ := pyNotInSet_true seen cur hn
              have := unseenKeys_pos fs cur seen hany hseen
              omega
  | succ n ih =>
    intro cur seen hle
    conv_lhs => rw [walk]
    conv_rhs => rw [walk]
    by_cases ht : truthy cur = false
    · simp [ht]
    · have ht' : truthy cur = true := by revert ht; cases truthy cur <;> simp
      cases hc : pyContains (.obj fs) cur with
      | error e => simp [ht', hc]
      | ok b =>
        cases b with
        | false => simp [ht', hc]
        | true =>
          cases hn : pyNotInSet seen cur with
          | error e => simp [ht', hc, hn]
          | ok nb =>
            cases nb with
            | false => simp [ht', hc, hn]
            | true =>
              obtain ⟨hh, hany⟩ := pyContains_obj_true fs cur hc
              obtain ⟨_, hseen⟩ := pyNotInSet_true seen cur hn
              have hlt := unseenKeys_cons_lt fs cur seen hh hany hseen
              cases hs : pySubscript (.obj fs) cur with
              | error e => simp [ht', hc, hn, hs]
              | ok node =>
                cases hg : pyGetD node "parent" .null with
                | error e => simp [ht', hc, hn, hs, hg]
                | ok parent =>
                  have hrec := ih parent (cur :: seen) (by omega)
                  simp [ht', hc, hn, hs, hg, hrec]

/-- Fuel beyond the unseen-key count is irrelevant. -/
theorem walk_ge (fs : List (String × J)) (fuel : Nat) (cur : J) (seen : List J)
    (hle : unseenKeys fs seen ≤ fuel) :
    ∀ k : Nat, walk (.obj fs) (fuel + k) cur seen = walk (.obj fs) fuel cur seen := by
  intro k
  induction k with
  | zero => rfl
  | succ j ihj =>
    have : fuel + (j + 1) = (fuel + j) + 1 := by omega
    rw [this, walk_stable fs (fuel + j) cur seen (le_trans hle (by omega))]
    exact ihj

/-- Everything all exits of one `walk` step return: used below to push an
invariant through the loop. -/
theorem walk_invariant (mapping : J) :
    ∀ (fuel : Nat) (cur : J) (seen : List J) (ns : List (J × J)),
      walk mapping fuel cur seen = .ok ns →
      (ns.map Prod.fst).Nodup ∧
        ∀ x ∈ ns.map Prod.fst,
          hashable x = true ∧ seen.any (fun e => pyEq x e) = false := by
  intro fuel
  induction fuel with
  | zero =>
    intro cur seen ns h
    rw [walk] at h
    repeat' split at h
    all_goals simp_all
  | succ n ih =>
    intro cur seen ns h
    rw [walk] at h
    by_cases ht : truthy cur = false
    · simp only [if_pos ht] at h
      injection h with h2
      subst h2
      simp
    · simp only [if_neg ht] at h
      cases hc : pyContains mapping cur with
      | error e => simp [hc] at h
      | ok b =>
        simp only [hc] at h
        cases b with
        | false =>
          injection h with h2
          subst h2
          simp
        | true =>
          cases hn : pyNotInSet seen cur with
          | error e => simp [hn] at h
          | ok nb =>
            simp only [hn] at h
            cases nb with
            | false =>
              injection h with h2
              subst h2
              simp
            | true =>
              cases hs : pySubscript mapping cur with
              | error e => simp [hs] at h
              | ok node =>
                simp only [hs] at h
                cases hg : pyGetD node "parent" .null with
                | error e => simp [hg] at h
                | ok parent =>
                  simp only [hg] at h
                  cases hr : walk mapping n parent (cur :: seen) with
                  | error e => simp [hr] at h
                  | ok rest =>
                    simp only [hr] at h
                    injection h with h2
                    subst h2
                    obtain ⟨hnd, hprop⟩ := ih parent (cur :: seen) rest hr
                    obtain ⟨hh, hseen⟩ := pyNotInSet_true seen cur hn
                    constructor
                    · rw [List.map_cons, List.nodup_cons]
                      refine ⟨?_, hnd⟩
                      intro hmem
                      have := (hprop cur hmem).2
                      simp [List.any_cons, pyEq_refl_hashable cur hh] at this
                    · intro x hx
                      rw [List.map_cons, List.mem_cons] at hx
                      rcases hx with rfl | hx'
                      · exact ⟨hh, hseen⟩
                      · obtain ⟨hxh, hxs⟩ := hprop x hx'
                        simp only [List.any_cons, Bool.or_eq_false_iff] at hxs
                        exact ⟨hxh, hxs.2⟩

/-- The number of nodes a traversal of a node mapping returns is bounded
by the unseen-key count. -/
theorem walk_obj_length (fs : List (String × J)) :
    ∀ (fuel : Nat) (cur : J) (seen : List J) (ns : List (J × J)),
      walk (.obj fs) fuel cur seen = .ok ns → ns.length ≤ unseenKeys fs seen := by
  intro fuel
  induction fuel with
  | zero =>
    intro cur seen ns h
    rw [walk] at h
    repeat' split at h
    all_goals simp_all
  | succ n ih =>
    intro cur seen ns h
    rw [walk] at h
    by_cases ht : truthy cur = false
    · simp only [if_pos ht] at h
      injection h with h2
      subst h2
      simp
    · simp only [if_neg ht] at h
      cases hc : pyContains (.obj fs) cur with
      | error e => simp [hc] at h
      | ok b =>
        simp only [hc] at h
        cases b with
        | false =>
          injection h with h2
          subst h2
          simp
        | true =>
          cases hn : pyNotInSet seen cur with
          | error e => simp [hn] at h
          | ok nb =>
            simp only [hn] at h
            cases nb with
            | false =>
              injection h with h2
              subst h2
              simp
            | true =>
              cases hs : pySubscript (.obj fs) cur with
              | error e => simp [hs] at h
              | ok node =>
                simp only [hs] at h
                cases hg : pyGetD node "parent" .null with
                | error e => simp [hg] at h
                | ok parent =>
                  simp only [hg] at h
                  cases hr : walk (.obj fs) n parent (cur :: seen) with
                  | error e => simp [hr] at h
                  | ok rest =>
                    simp only [hr] at h
                    injection h with h2
                    subst h2
                    have htail := ih parent (cur :: seen) rest hr
                    obtain ⟨hh, hany⟩ := pyContains_obj_true fs cur hc
                    obtain ⟨_, hseen⟩ := pyNotInSet_true seen cur hn
                    have hlt := unseenKeys_cons_lt fs cur seen hh hany hseen
                    simp only [List.length_cons]
                    omega

/-- With no element seen yet, every key is unseen. -/
theorem unseenKeys_nil (fs : List (String × J)) : unseenKeys fs [] = fs.length := by
  unfold unseenKeys
  simp

/-- C5: over any node mapping (cyclic parent links included) and any
starting value, the traversal's result does not depend on the fuel once it
exceeds the number of keys (the loop terminates by itself), the sequence
of visited node identifiers has no duplicates, and its length is at most
the number of keys (a finite, possibly empty sequence). -/
theorem walk_cycle_safe (fs : List (String × J)) (cur : J) (f₁ f₂ : Nat)
    (ns : List (J × J))
    (h₁ : fs.length ≤ f₁) (h₂ : fs.length ≤ f₂)
    (hok : walk (.obj fs) f₁ cur [] = .ok ns) :
    walk (.obj fs) f₁ cur [] = walk (.obj fs) f₂ cur [] ∧
      (ns.map Prod.fst).Nodup ∧ ns.length ≤ fs.length := by
  have hbase : unseenKeys fs [] ≤ fs.length := by rw [unseenKeys_nil]
  obtain ⟨k₁, rfl⟩ := Nat.exists_eq_add_of_le h₁
  obtain ⟨k₂, rfl⟩ := Nat.exists_eq_add_of_le h₂
  have e₁ := walk_ge fs fs.length cur [] hbase k₁
  have e₂ := walk_ge fs fs.length cur [] hbase k₂
  refine ⟨by rw [e₁, e₂], ?_, ?_⟩
  · exact (walk_invariant (.obj fs) (fs.length + k₁) cur [] ns hok).1
  · have := walk_obj_length fs (fs.length + k₁) cur [] ns hok
    rw [unseenKeys_nil] at this
    exact this

/-- Witness for C5 at a two-node parent cycle. -/
theorem walk_cycle_safe_witness :
    (cycleFields.length ≤ 2 ∧ cycleFields.length ≤ 5 ∧
        walk (.obj cycleFields) 2 (.str "A") []
          = .ok [(J.str "A", J.obj [("parent", J.str "B")]),
                 (J.str "B", J.obj [("parent", J.str "A")])]) ∧
      (walk (.obj cycleFields) 2 (.str "A") [] = walk (.obj cycleFields) 5 (.str "A") [] ∧
        ([(J.str "A", J.obj [("parent", J.str "B")]),
          (J.str "B", J.obj [("parent", J.str "A")])].map Prod.fst).Nodup ∧
        [(J.str "A", J.obj [("parent", J.str "B")]),
         (J.str "B", J.obj [("parent", J.str "A")])].length ≤ cycleFields.length) :=
  ⟨⟨by decide, by decide, rfl⟩,
    walk_cycle_safe cycleFields (.str "A") 2 5
      [(J.str "A", J.obj [("parent", J.str "B")]),
       (J.str "B", J.obj [("parent", J.str "A")])]
      (by decide) (by decide) rfl⟩

/-! ### Extractor error behaviour (C2) -/

/-- C2 counterexample: a conversation whose only oddity is the content
part `{"text": 5}` — squarely "malformed per-message data" — makes
`extract_messages_from_mapping` raise `TypeError` (at `"\n".join`)
instead of degrading to a skipped entry. -/
theorem extract_c2_counterexample :
    extract_messages_from_mapping oddPartConv = .error PyErr.typeError := rfl

/-- A found binding is a member. -/
theorem jLookup_mem : ∀ (fs : List (String × J)) (k : String) (v : J),
    jLookup fs k = some v → (k, v) ∈ fs := by
  intro fs
  induction fs with
  | nil => intro k v h; simp [jLookup] at h
  | cons kv rest ih =>
    intro k v h
    rw [jLookup] at h
    by_cases he : kv.1 == k
    · rw [if_pos he] at h
      injection h with h2
      have h1 : kv.1 = k := by simpa using he
      exact List.mem_cons.mpr (Or.inl (by rw [← h1, ← h2]))
    · rw [if_neg he] at h
      exact List.mem_cons_of_mem _ (ih k v h)

/-- A key Python-equal to some key of the list is found by lookup. -/
theorem any_key_jLookup : ∀ (fs : List (String × J)) (s : String),
    fs.any (fun kv => pyEq (.str s) (.str kv.1)) = true →
    ∃ v, jLookup fs s = some v := by
  intro fs
  induction fs with
  | nil => intro s h; simp at h
  | cons kv rest ih =>
    intro s h
    rw [jLookup]
    by_cases he : kv.1 == s
    · exact ⟨kv.2, by rw [if_pos he]⟩
    · rw [if_neg he]
      apply ih
      simp only [List.any_cons, Bool.or_eq_true] at h
      rcases h with h1 | h2
      · exfalso
        have : s = kv.1 := by simpa [pyEq] using h1
        simp [this] at he
      · exact h2

/-- Under a well-formed node mapping and a hashable start, the traversal
never raises, and every node it returns is a value of the mapping. -/
theorem walk_wf_ok (fs : List (String × J))
    (hwf : ∀ kv ∈ fs, wfNode kv.2 = true) :
    ∀ (fuel : Nat) (cur : J) (seen : List J), hashable cur = true →
      ∃ ns, walk (.obj fs) fuel cur seen = .ok ns ∧
        ∀ pr ∈ ns, pr.2 ∈ fs.map Prod.snd := by
  intro fuel
  induction fuel with
  | zero =>
    intro cur seen hcur
    refine ⟨[], ?_, by simp⟩
    rw [walk]
    by_cases ht : truthy cur = false
    · simp [ht]
    · simp only [if_neg ht, pyContains, hcur, if_true]
      cases hb : fs.any (fun kv => pyEq cur (.str kv.1)) with
      | false => rfl
      | true =>
        simp only [pyNotInSet, hcur, if_true]
        cases hs : seen.any (fun e => pyEq cur e) <;> rfl
  | succ n ih =>
    intro cur seen hcur
    rw [walk]
    by_cases ht : truthy cur = false
    · exact ⟨[], by simp [ht], by simp⟩
    · simp only [if_neg ht, pyContains, hcur, if_true]
      cases hb : fs.any (fun kv => pyEq cur (.str kv.1)) with
      | false => exact ⟨[], rfl, by simp⟩
      | true =>
        simp only [pyNotInSet, hcur, if_true]
        cases hsn : seen.any (fun e => pyEq cur e) with
        | true => exact ⟨[], rfl, by simp⟩
        | false =>
          obtain ⟨kv, hkv, hpe⟩ := List.any_eq_true.mp hb
          have hcur' : cur = .str kv.1 := pyEq_str_inv _ _ hpe
          subst hcur'
          obtain ⟨v, hlv⟩ := any_key_jLookup fs kv.1 hb
          have hvmem : (kv.1, v) ∈ fs := jLookup_mem fs kv.1 v hlv
          have hwfv : wfNode v = true := hwf _ hvmem
          have hsub : pySubscript (.obj fs) (.str kv.1) = .ok v := by
            simp [pySubscript, hlv]
          simp only [Bool.not_false, hsub]
          cases v with
          | obj nfs =>
            simp only [show pyGetD (J.obj nfs) "parent" J.null
                = .ok (jLookupD nfs "parent" J.null) from rfl]
            have hhp : hashable (jLookupD nfs "parent" .null) = true := by
              have := hwfv
              simp only [wfNode, Bool.and_eq_true] at this
              exact this.1
            obtain ⟨rest, hrest, hmr⟩ := ih (jLookupD nfs "parent" .null)
              (J.str kv.1 :: seen) hhp
            simp only [hrest]
            refine ⟨(J.str kv.1, J.obj nfs) :: rest, rfl, ?_⟩
            intro pr hpr
            rcases List.mem_cons.mp hpr with rfl | hpr'
            · exact List.mem_map_of_mem Prod.snd hvmem
            · exact hmr pr hpr'
          | null => simp [wfNode] at hwfv
          | bool b => simp [wfNode] at hwfv
          | num i => simp [wfNode] at hwfv
          | str s => simp [wfNode] at hwfv
          | arr xs => simp [wfNode] at hwfv

/-- A truthy value satisfying `wfDict` is a dict. -/
theorem wfDict_truthy_obj (v : J) (hw : wfDict v = true) (ht : truthy v = true) :
    ∃ gs, v = J.obj gs := by
  cases v <;> simp_all [wfDict]

/-- A truthy value satisfying `wfContent` is a dict with well-formed
`parts`. -/
theorem wfContent_truthy_obj (c : J) (hw : wfContent c = true) (ht : truthy c = true) :
    ∃ cfs, c = J.obj cfs ∧ wfParts (jLookupD cfs "parts" J.null) = true := by
  cases c <;> simp_all [wfContent]

/-- A truthy value satisfying `wfText` is a string. -/
theorem wfText_truthy_str (t : J) (hw : wfText t = true) (ht : truthy t = true) :
    ∃ s, t = J.str s := by
  cases t <;> simp_all [wfText]

/-- A truthy value satisfying `wfPayload` is a dict with dict-or-falsy
`author` and `metadata` and well-formed `content`. -/
theorem wfPayload_truthy_obj (m : J) (hw : wfPayload m = true) (ht : truthy m = true) :
    ∃ mfs, m = J.obj mfs ∧ wfDict (jLookupD mfs "author" J.null) = true ∧
      wfDict (jLookupD mfs "metadata" J.null) = true ∧
      wfContent (jLookupD mfs "content" J.null) = true := by
  cases m <;> simp_all [wfPayload]

/-- A chunk produced from a well-formed part is a string. -/
theorem partChunk_wf_str (q c : J) (hq : wfPart q = true) (hc : partChunk q = some c) :
    ∃ s, c = .str s := by
  cases q with
  | str s =>
    rw [partChunk] at hc
    by_cases hss : s.data.any (fun ch => !pyIsSpace ch) = true
    · rw [if_pos hss] at hc
      injection hc with h2
      exact ⟨s, h2.symm⟩
    · rw [if_neg hss] at hc
      cases hc
  | obj fs =>
    simp only [partChunk] at hc
    by_cases htt : truthy (jLookupD fs "text" J.null) = true
    · rw [if_pos htt] at hc
      injection hc with h2
      subst h2
      have hq' : wfText (jLookupD fs "text" J.null) = true := by
        simpa [wfPart] using hq
      exact wfText_truthy_str _ hq' htt
    · rw [if_neg htt] at hc
      simp only [Bool.and_eq_true] at hc
      rw [if_neg (by intro hcon; exact htt hcon.2)] at hc
      cases hc
  | null => cases hc
  | bool b => cases hc
  | num i => cases hc
  | arr xs => cases hc

/-- Chunks flattened from well-formed parts are all strings, so joining
them cannot raise. -/
theorem asStrings_flatten (elems : List J) (h : ∀ q ∈ elems, wfPart q = true) :
    ∃ l, asStrings (flattenChunks elems) = some l := by
  induction elems with
  | nil => exact ⟨[], rfl⟩
  | cons q rest ih =>
    obtain ⟨l, hl⟩ := ih (fun x hx => h x (List.mem_cons_of_mem _ hx))
    unfold flattenChunks at hl ⊢
    rw [List.filterMap_cons]
    cases hpc : partChunk q with
    | none => exact ⟨l, hl⟩
    | some c =>
      obtain ⟨s, rfl⟩ := partChunk_wf_str q c (h q (List.mem_cons_self _ _)) hpc
      exact ⟨s :: l, by rw [asStrings, hl]⟩

/-- Under well-formed `parts`, iteration succeeds and yields well-formed
elements. -/
theorem pyIter_wf (p : J) (hp : wfParts p = true) :
    ∃ elems, pyIter (if truthy p then p else .arr []) = .ok elems ∧
      ∀ q ∈ elems, wfPart q = true := by
  cases p with
  | arr xs =>
    by_cases ht : truthy (J.arr xs) = true
    · rw [if_pos ht]
      refine ⟨xs, rfl, ?_⟩
      intro q hq
      simp only [wfParts, List.all_eq_true] at hp
      exact hp q hq
    · rw [if_neg ht]
      exact ⟨[], rfl, by simp⟩
  | str s =>
    by_cases ht : truthy (J.str s) = true
    · rw [if_pos ht]
      refine ⟨s.data.map (fun c => .str (String.mk [c])), rfl, ?_⟩
      intro q hq
      obtain ⟨c, _, rfl⟩ := List.mem_map.mp hq
      rfl
    · rw [if_neg ht]
      exact ⟨[], rfl, by simp⟩
  | obj fs =>
    by_cases ht : truthy (J.obj fs) = true
    · rw [if_pos ht]
      refine ⟨fs.map (fun kv : String × J => J.str kv.1), rfl, ?_⟩
      intro q hq
      obtain ⟨kv, _, rfl⟩ := List.mem_map.mp hq
      rfl
    · rw [if_neg ht]
      exact ⟨[], rfl, by simp⟩
  | null => exact ⟨[], rfl, by simp⟩
  | bool b =>
    simp only [wfParts, Bool.not_eq_true'] at hp
    rw [hp]
    exact ⟨[], rfl, by simp⟩
  | num i =>
    have hz : i = 0 := by
      simp only [wfParts] at hp
      simpa using hp
    have : truthy (J.num i) = false := by simp [truthy, hz]
    rw [if_neg (by simp [this])]
    exact ⟨[], rfl, by simp⟩

/-- Under a well-formed payload the content stage never raises, whatever
the resolved author. -/
theorem processPayloadWithAuthor_wf (mfs : List (String × J)) (author : J)
    (hmd : wfDict (jLookupD mfs "metadata" J.null) = true)
    (hct : wfContent (jLookupD mfs "content" J.null) = true) :
    ∃ o, processPayloadWithAuthor (.obj mfs) author = .ok o := by
  unfold processPayloadWithAuthor
  have hskip : ∃ sk, (if pyEq author (J.str "system") = true then
      match pyGetD (J.obj mfs) "metadata" J.null with
      | Except.error e => Except.error e
      | Except.ok md =>
        match pyGetD (if truthy md = true then md else J.obj []) "is_user_system_message" J.null with
        | Except.error e => Except.error e
        | Except.ok flag => Except.ok !truthy flag
    else Except.ok false) = Except.ok sk := by
    by_cases hsys : pyEq author (J.str "system") = true
    · rw [if_pos hsys]
      simp only [show pyGetD (J.obj mfs) "metadata" J.null
            = .ok (jLookupD mfs "metadata" J.null) from rfl]
      by_cases htm : truthy (jLookupD mfs "metadata" J.null) = true
      · rw [if_pos htm]
        obtain ⟨gs, hgs⟩ := wfDict_truthy_obj _ hmd htm
        rw [hgs]
        exact ⟨_, rfl⟩
      · rw [if_neg htm]
        exact ⟨_, rfl⟩
    · rw [if_neg hsys]
      exact ⟨false, rfl⟩
  obtain ⟨sk, hsk⟩ := hskip
  simp only [hsk]
  cases sk with
  | true => exact ⟨none, rfl⟩
  | false =>
    rw [if_neg (fun hcon => Bool.noConfusion hcon)]
    simp only [show pyGetD (J.obj mfs) "content" J.null
          = .ok (jLookupD mfs "content" J.null) from rfl]
    by_cases htc : truthy (jLookupD mfs "content" J.null) = true
    · obtain ⟨cfs, hcv, hparts⟩ := wfContent_truthy_obj _ hct htc
      rw [hcv]
      simp only [if_pos (show truthy (J.obj cfs) = true by rw [hcv] at htc; exact htc)]
      simp only [show pyGetD (J.obj cfs) "content_type" J.null
            = .ok (jLookupD cfs "content_type" J.null) from rfl]
      by_cases hft : (pyEq (jLookupD cfs "content_type" J.null) (J.str "text")
          || pyEq (jLookupD cfs "content_type" J.null) (J.str "multimodal_text")) = false
      · rw [if_pos hft]
        exact ⟨none, rfl⟩
      · rw [if_neg hft]
        simp only [show pyGetD (J.obj cfs) "parts" J.null
              = .ok (jLookupD cfs "parts" J.null) from rfl]
        obtain ⟨elems, hie, helems⟩ := pyIter_wf (jLookupD cfs "parts" J.null) hparts
        simp only [hie]
        obtain ⟨l, hjs⟩ := asStrings_flatten elems helems
        simp only [show pyJoinNL (flattenChunks elems)
              = .ok (String.intercalate "\n" l) from by rw [pyJoinNL, hjs]]
        by_cases hemp : clean_text (String.intercalate "\n" l) = ""
        · rw [if_pos hemp]
          exact ⟨none, rfl⟩
        · rw [if_neg hemp]
          exact ⟨_, rfl⟩
    · simp only [if_neg htc]
      simp only [show pyGetD (J.obj []) "content_type" J.null = .ok J.null from rfl]
      rw [if_pos (by rfl)]
      exact ⟨none, rfl⟩

/-- Under a well-formed truthy payload, author resolution never raises. -/
theorem resolveAuthor_wf (mfs : List (String × J))
    (hau : wfDict (jLookupD mfs "author" J.null) = true) :
    ∃ a, resolveAuthor (.obj mfs) = .ok a := by
  unfold resolveAuthor
  simp only [show pyGetD (J.obj mfs) "author" J.null
        = .ok (jLookupD mfs "author" J.null) from rfl]
  by_cases hta : truthy (jLookupD mfs "author" J.null) = true
  · rw [if_pos hta]
    obtain ⟨gs, hgs⟩ := wfDict_truthy_obj _ hau hta
    rw [hgs]
    exact ⟨_, rfl⟩
  · rw [if_neg hta]
    exact ⟨_, rfl⟩

/-- A well-formed node is processed without raising. -/
theorem processNode_wf (n : J) (hn : wfNode n = true) :
    ∃ o, processNode n = .ok o := by
  cases n with
  | obj nfs =>
    unfold processNode
    simp only [show pyGetD (J.obj nfs) "message" J.null
          = .ok (jLookupD nfs "message" J.null) from rfl]
    by_cases htm : truthy (jLookupD nfs "message" J.null) = true
    · rw [if_pos htm]
      have hwp : wfPayload (jLookupD nfs "message" J.null) = true := by
        simp only [wfNode, Bool.and_eq_true] at hn
        exact hn.2
      obtain ⟨mfs, hm, hau, hmd, hct⟩ := wfPayload_truthy_obj _ hwp htm
      rw [hm]
      unfold processPayload
      obtain ⟨a, ha⟩ := resolveAuthor_wf mfs hau
      simp only [ha]
      exact processPayloadWithAuthor_wf mfs a hmd hct
    · rw [if_neg htm]
      exact ⟨none, rfl⟩
  | null => simp [wfNode] at hn
  | bool b => simp [wfNode] at hn
  | num i => simp [wfNode] at hn
  | str s => simp [wfNode] at hn
  | arr xs => simp [wfNode] at hn

/-- A list of well-formed nodes is processed without raising. -/
theorem processNodes_wf (l : List J) (h : ∀ n ∈ l, wfNode n = true) :
    ∃ ms, processNodes l = .ok ms := by
  induction l with
  | nil => exact ⟨[], rfl⟩
  | cons n rest ih =>
    obtain ⟨o, ho⟩ := processNode_wf n (h n (List.mem_cons_self _ _))
    obtain ⟨ms, hms⟩ := ih (fun x hx => h x (List.mem_cons_of_mem _ hx))
    rw [processNodes, ho, hms]
    exact ⟨_, rfl⟩

/-- C2 amended: the extractor completes without raising on every
conversation that is well-formed in the export's shape — a dict whose
`mapping` is a dict of dict nodes with hashable parents, whose truthy
`message`, `author`, `metadata`, `content` fields are dicts, whose `parts`
is iterable, and whose structured parts carry string `text` — missing
fields and skipped entries degrading gracefully.  (As stated over ALL
conversation values the claim is false: see the counterexample.) -/
theorem extract_wf_ok (conv : J) (h : wfConv conv = true) :
    isOkE (extract_messages_from_mapping conv) = true := by
  cases conv with
  | obj cfs =>
    simp only [wfConv, Bool.and_eq_true] at h
    unfold extract_messages_from_mapping
    simp only [show pyGetD (J.obj cfs) "mapping" (J.obj [])
          = .ok (jLookupD cfs "mapping" (J.obj [])) from rfl]
    simp only [show pyGetD (J.obj cfs) "current_node" J.null
          = .ok (jLookupD cfs "current_node" J.null) from rfl]
    cases hmv : jLookupD cfs "mapping" (J.obj []) with
    | obj mfs =>
      try rw [hmv] at h
      have hnodes : ∀ kv ∈ mfs, wfNode kv.2 = true := by
        have := h.1
        simpa [List.all_eq_true] using this
      obtain ⟨ns, hns, hmem⟩ := walk_wf_ok mfs hnodes
        (universeLen (J.obj mfs) + 1) (jLookupD cfs "current_node" J.null) [] h.2
      try rw [hmv]
      simp only [hns]
      have hwfnodes : ∀ n ∈ (ns.map Prod.snd).reverse, wfNode n = true := by
        intro n hnn
        rw [List.mem_reverse] at hnn
        obtain ⟨pr, hpr, rfl⟩ := List.mem_map.mp hnn
        have hv := hmem pr hpr
        obtain ⟨kv, hkv, hkv2⟩ := List.mem_map.mp hv
        rw [← hkv2]
        exact hnodes kv hkv
      obtain ⟨ms, hms⟩ := processNodes_wf ((ns.map Prod.snd).reverse) hwfnodes
      rw [hms]
      rfl
    | null => simp [hmv] at h
    | bool b => simp [hmv] at h
    | num i => simp [hmv] at h
    | str s => simp [hmv] at h
    | arr xs => simp [hmv] at h
  | null => simp [wfConv] at h
  | bool b => simp [wfConv] at h
  | num i => simp [wfConv] at h
  | str s => simp [wfConv] at h
  | arr xs => simp [wfConv] at h

/-- Witness for C2's amended claim at the demo conversation. -/
theorem extract_wf_ok_witness :
    wfConv demoConv = true ∧ isOkE (extract_messages_from_mapping demoConv) = true :=
  ⟨rfl, extract_wf_ok demoConv rfl⟩

/-! ### Normalizer lemmas (C4, C1) -/

/-- Strong induction on list length. -/
theorem list_strong_ind {α : Type} (P : List α → Prop)
    (step : ∀ l : List α, (∀ l₂ : List α, l₂.length < l.length → P l₂) → P l) :
    ∀ l : List α, P l := by
  have H : ∀ (n : Nat) (l : List α), l.length ≤ n → P l := by
    intro n
    induction n using Nat.strong_induction_on with
    | _ n ih =>
      intro l hl
      refine step l ?_
      intro l₂ hl₂
      exact ih l₂.length (lt_of_lt_of_le hl₂ hl) l₂ le_rfl
  exact fun l => H l.length l le_rfl

/-- The head surviving a `dropWhile` fails the predicate. -/
theorem head_dropWhile_false (p : Char → Bool) :
    ∀ (l : List Char) (c : Char), (l.dropWhile p).head? = some c → p c = false := by
  intro l
  induction l with
  | nil => intro c h; simp at h
  | cons a l ih =>
    intro c h
    rw [List.dropWhile_cons] at h
    by_cases hp : p a = true
    · rw [if_pos hp] at h
      exact ih c h
    · rw [if_neg hp] at h
      injection h with h2
      rw [← h2]
      simpa using hp

/-- A non-empty suffix has the same last element as the whole list. -/
theorem suffix_getLast (l₁ l₂ : List Char) (h : l₁ <:+ l₂) (hne : l₁ ≠ []) :
    l₁.getLast? = l₂.getLast? := by
  obtain ⟨t, rfl⟩ := h
  rw [List.getLast?_append]
  cases hg : l₁.getLast? with
  | some c => rfl
  | none =>
    exfalso
    exact hne (List.getLast?_eq_none_iff.mp hg)

/-- The last character of a stripped list is not whitespace. -/
theorem pyStrip_last (l : List Char) (c : Char) (h : (pyStrip l).getLast? = some c) :
    pyIsSpace c = false := by
  unfold pyStrip at h
  rw [List.getLast?_reverse] at h
  exact head_dropWhile_false _ _ _ h

/-- The first character of a stripped list is not whitespace. -/
theorem pyStrip_head (l : List Char) (c : Char) (h : (pyStrip l).head? = some c) :
    pyIsSpace c = false := by
  unfold pyStrip at h
  rw [List.head?_reverse] at h
  have hne : (l.dropWhile pyIsSpace).reverse.dropWhile pyIsSpace ≠ [] := by
    intro hh
    rw [hh] at h
    simp at h
  rw [suffix_getLast _ _ (List.dropWhile_suffix pyIsSpace) hne] at h
  rw [List.getLast?_reverse] at h
  exact head_dropWhile_false _ _ _ h

/-- A stripped list has no outer whitespace. -/
theorem hasOuterWS_pyStrip (l : List Char) : hasOuterWS (pyStrip l) = false := by
  unfold hasOuterWS
  rw [Bool.or_eq_false_iff]
  constructor
  · cases hh : (pyStrip l).head? with
    | none => rfl
    | some c => exact pyStrip_head l c hh
  · cases hh : (pyStrip l).getLast? with
    | none => rfl
    | some c => exact pyStrip_last l c hh

/-- `dropWhile` is the identity when the head fails the predicate. -/
theorem dropWhile_eq_self_of_head (p : Char → Bool) (l : List Char)
    (h : ∀ c, l.head? = some c → p c = false) : l.dropWhile p = l := by
  cases l with
  | nil => rfl
  | cons a l =>
    rw [List.dropWhile_cons, if_neg]
    simp [h a rfl]

/-- Stripping a list with no outer whitespace changes nothing. -/
theorem pyStrip_eq_self (l : List Char) (h : hasOuterWS l = false) : pyStrip l = l := by
  unfold hasOuterWS at h
  rw [Bool.or_eq_false_iff] at h
  have hhd : ∀ c, l.head? = some c → pyIsSpace c = false := by
    intro c hc
    have := h.1
    rw [hc] at this
    exact this
  have hlst : ∀ c, l.reverse.head? = some c → pyIsSpace c = false := by
    intro c hc
    rw [List.head?_reverse] at hc
    have := h.2
    rw [hc] at this
    exact this
  unfold pyStrip
  rw [dropWhile_eq_self_of_head _ l hhd, dropWhile_eq_self_of_head _ l.reverse hlst,
    List.reverse_reverse]

/-- The stripped list occurs contiguously inside the original. -/
theorem pyStrip_isInfix (l : List Char) : pyStrip l <:+: l := by
  have h1 : l.dropWhile pyIsSpace <:+ l := List.dropWhile_suffix _
  have h2 : (l.dropWhile pyIsSpace).reverse.dropWhile pyIsSpace
      <:+ (l.dropWhile pyIsSpace).reverse := List.dropWhile_suffix _
  have h3 : ((l.dropWhile pyIsSpace).reverse.dropWhile pyIsSpace).reverse
      <+: l.dropWhile pyIsSpace := by
    have h4 := List.reverse_prefix.mpr h2
    rwa [List.reverse_reverse] at h4
  exact (List.IsPrefix.isInfix h3).trans (List.IsSuffix.isInfix h1)

/-- `startsTriple` inverted. -/
theorem startsTriple_eq_true (l : List Char) (h : startsTriple l = true) :
    ∃ t, l = '\n' :: '\n' :: '\n' :: t := by
  unfold startsTriple at h
  split at h
  · exact ⟨_, rfl⟩
  · cases h

/-- The three-line-feed checker agrees with contiguous containment. -/
theorem hasTripleNL_iff (l : List Char) :
    hasTripleNL l = true ↔ ['\n', '\n', '\n'] <:+: l := by
  induction l with
  | nil =>
    simp only [hasTripleNL]
    constructor
    · intro h; cases h
    · intro h
      have := h.sublist.length_le
      simp at this
  | cons c rest ih =>
    rw [hasTripleNL, Bool.or_eq_true]
    constructor
    · intro h
      rcases h with h1 | h2
      · obtain ⟨t, ht⟩ := startsTriple_eq_true _ h1
        rw [ht]
        exact ⟨[], t, rfl⟩
      · exact List.infix_cons (ih.mp h2)
    · intro h
      rcases List.infix_cons_iff.mp h with hpre | hinf
      · left
        obtain ⟨t, ht⟩ := hpre
        rw [← ht]
        rfl
      · right
        exact ih.mpr hinf

/-- A prefix of a cons list starts with the same head. -/
theorem prefix_head (c : Char) (p l : List Char) (h : (c :: p) <+: l) :
    ∃ t, l = c :: t := by
  obtain ⟨t, ht⟩ := h
  exact ⟨p ++ t, by rw [← ht]; rfl⟩

/-- One unfolding of the newline capper on a cons cell. -/
theorem capNLAux_cons (b : Bool) (c : Char) (rest : List Char) :
    capNLAux b (c :: rest) =
      if c = '\n' then
        if b then capNLAux true rest
        else
          match rest with
          | [] => ['\n']
          | c2 :: rest2 =>
            if c2 = '\n' then '\n' :: '\n' :: capNLAux true rest2
            else '\n' :: capNLAux false (c2 :: rest2)
      else c :: capNLAux false rest := by
  rw [capNLAux.eq_def]

/-- The result of the drop-state of the newline capper never starts with a
line feed. -/
theorem capNLAux_true_head :
    ∀ (l : List Char) (c : Char) (t : List Char),
      capNLAux true l = c :: t → c ≠ '\n' := by
  intro l
  induction l with
  | nil => intro c t h; simp [capNLAux] at h
  | cons a rest ih =>
    intro c t h
    rw [capNLAux_cons] at h
    by_cases ha : a = '\n'
    · rw [if_pos ha, if_pos rfl] at h
      exact ih c t h
    · rw [if_neg ha] at h
      injection h with h1 h2
      rw [← h1]
      exact ha

/-- The capper's output, from either state, contains no three consecutive
line feeds. -/
theorem capNLAux_noTriple :
    ∀ (l : List Char) (b : Bool), ¬ (['\n', '\n', '\n'] <:+: capNLAux b l) := by
  refine list_strong_ind (fun l => ∀ b : Bool, ¬ (['\n', '\n', '\n'] <:+: capNLAux b l)) ?_
  intro l ih b
  match l with
  | [] =>
    intro h
    have := h.sublist.length_le
    simp [capNLAux] at this
  | a :: rest =>
    rw [capNLAux_cons]
    by_cases ha : a = '\n'
    · rw [if_pos ha]
      cases b with
      | true =>
        rw [if_pos rfl]
        exact ih rest (by simp only [List.length_cons]; omega) true
      | false =>
        rw [if_neg (by simp)]
        match rest with
        | [] =>
          intro h
          have := h.sublist.length_le
          simp at this
        | c2 :: rest2 =>
          have hred : (match c2 :: rest2 with
              | [] => ['\n']
              | c2 :: rest2 =>
                if c2 = '\n' then '\n' :: '\n' :: capNLAux true rest2
                else '\n' :: capNLAux false (c2 :: rest2)) =
              if c2 = '\n' then '\n' :: '\n' :: capNLAux true rest2
              else '\n' :: capNLAux false (c2 :: rest2) := rfl
          rw [hred]
          by_cases hc2 : c2 = '\n'
          · rw [if_pos hc2]
            intro h
            rcases List.infix_cons_iff.mp h with hp1 | h1
            · obtain ⟨u, hu⟩ := hp1
              injection hu with e1 hu1
              injection hu1 with e2 hu2
              exact capNLAux_true_head rest2 '\n' u hu2.symm rfl
            · rcases List.infix_cons_iff.mp h1 with hp2 | h2
              · obtain ⟨u, hu⟩ := hp2
                injection hu with e1 hu1
                exact capNLAux_true_head rest2 '\n' ('\n' :: u) hu1.symm rfl
              · exact ih rest2 (by simp only [List.length_cons]; omega) true h2
          · rw [if_neg hc2]
            intro h
            rcases List.infix_cons_iff.mp h with hp1 | h1
            · obtain ⟨u, hu⟩ := hp1
              injection hu with e1 hu1
              have hrec : capNLAux false (c2 :: rest2) = c2 :: capNLAux false rest2 := by
                rw [capNLAux_cons, if_neg hc2]
              rw [hrec] at hu1
              injection hu1 with e2 hu2
              exact hc2 e2.symm
            · exact ih (c2 :: rest2) (by simp only [List.length_cons]; omega) false h1
    · rw [if_neg ha]
      intro h
      rcases List.infix_cons_iff.mp h with hp1 | h1
      · obtain ⟨u, hu⟩ := hp1
        injection hu with e1 hu1
        exact ha e1.symm
      · exact ih rest (by simp only [List.length_cons]; omega) false h1

theorem mk_data_eq (l : List Char) : (String.mk l).data = l := rfl

/-- C4: for every input string (absence treated as the empty string) the
text normalizer's output has no leading or trailing whitespace and no run
of three or more consecutive line feeds. -/
theorem clean_text_output_invariants (o : Option String) :
    hasOuterWS (clean_textOpt o).data = false ∧
      hasTripleNL (clean_textOpt o).data = false := by
  cases o with
  | none => exact ⟨rfl, rfl⟩
  | some s =>
    have e1 : clean_textOpt (some s) = String.mk (cleanChars s.data) := rfl
    rw [e1, mk_data_eq]
    unfold cleanChars
    constructor
    · exact hasOuterWS_pyStrip _
    · rw [← Bool.not_eq_true, hasTripleNL_iff]
      intro h
      exact capNLAux_noTriple _ false (List.IsInfix.trans h (pyStrip_isInfix _))

/-! ### Idempotence of the normalizer (C1)

The second application of each stage is shown to be the identity on the
first application's output, except for the bullet-two-space replacement,
which can keep shortening space runs after bullets (the counterexample);
idempotence is recovered under the hypothesis that the first output has no
bullet-space-space substring. -/

/-- One unfolding of the CRLF replacer on a cons cell. -/
theorem replCRLF_cons (c : Char) (rest : List Char) :
    replCRLF (c :: rest) =
      if c = '\x0d' then
        match rest with
        | [] => [c]
        | c2 :: rest2 =>
          if c2 = '\n' then '\n' :: replCRLF rest2
          else c :: replCRLF (c2 :: rest2)
      else c :: replCRLF rest := by
  rw [replCRLF.eq_def]

/-- One unfolding of the tab-bullet replacer on a cons cell. -/
theorem replTabBullet_cons (c : Char) (rest : List Char) :
    replTabBullet (c :: rest) =
      if c = '\t' then
        match rest with
        | [] => [c]
        | c2 :: rest2 =>
          if c2 = '•' then '•' :: replTabBullet rest2
          else c :: replTabBullet (c2 :: rest2)
      else c :: replTabBullet rest := by
  rw [replTabBullet.eq_def]

/-- One unfolding of the bullet-tab replacer on a cons cell. -/
theorem replBulletTab_cons (c : Char) (rest : List Char) :
    replBulletTab (c :: rest) =
      if c = '•' then
        match rest with
        | [] => [c]
        | c2 :: rest2 =>
          if c2 = '\t' then '•' :: ' ' :: replBulletTab rest2
          else c :: replBulletTab (c2 :: rest2)
      else c :: replBulletTab rest := by
  rw [replBulletTab.eq_def]

/-- One unfolding of the bullet-two-space replacer on a cons cell. -/
theorem replBulletTwoSpace_cons (c : Char) (rest : List Char) :
    replBulletTwoSpace (c :: rest) =
      if c = '•' then
        match rest with
        | [] => [c]
        | c2 :: rest2 =>
          if c2 = ' ' then
            match rest2 with
            | [] => c :: c2 :: []
            | c3 :: rest3 =>
              if c3 = ' ' then '•' :: ' ' :: replBulletTwoSpace rest3
              else c :: replBulletTwoSpace (c2 :: c3 :: rest3)
          else c :: replBulletTwoSpace (c2 :: rest2)
      else c :: replBulletTwoSpace rest := by
  rw [replBulletTwoSpace.eq_def]

/-- One unfolding of the CR replacer on a cons cell. -/
theorem replCR_cons (c : Char) (rest : List Char) :
    replCR (c :: rest) = (if c = '\x0d' then '\n' else c) :: replCR rest := by
  rw [replCR.eq_def]

/-- One unfolding of the tab replacer on a cons cell. -/
theorem replTab_cons (c : Char) (rest : List Char) :
    replTab (c :: rest) =
      if c = '\t' then ' ' :: ' ' :: ' ' :: ' ' :: replTab rest
      else c :: replTab rest := by
  rw [replTab.eq_def]

/-- One unfolding of the NBSP replacer on a cons cell. -/
theorem replNBSP_cons (c : Char) (rest : List Char) :
    replNBSP (c :: rest) = (if c = '\u00a0' then ' ' else c) :: replNBSP rest := by
  rw [replNBSP.eq_def]

/-- CRLF replacer on a non-CR head. -/
theorem replCRLF_cons_ne (c : Char) (rest : List Char) (h : c ≠ '\x0d') :
    replCRLF (c :: rest) = c :: replCRLF rest := by
  rw [replCRLF_cons, if_neg h]

/-- CRLF replacer on a final CR. -/
theorem replCRLF_cr_nil : replCRLF ['\x0d'] = ['\x0d'] := by
  rw [replCRLF_cons, if_pos rfl]

/-- CRLF replacer on a CR-LF pair. -/
theorem replCRLF_cr_nl (rest2 : List Char) :
    replCRLF ('\x0d' :: '\n' :: rest2) = '\n' :: replCRLF rest2 := by
  rw [replCRLF_cons, if_pos rfl]
  show (if ('\n' : Char) = '\n' then '\n' :: replCRLF rest2
    else '\x0d' :: replCRLF ('\n' :: rest2)) = '\n' :: replCRLF rest2
  rw [if_pos rfl]

/-- CRLF replacer on a CR not followed by LF. -/
theorem replCRLF_cr_ne (c2 : Char) (rest2 : List Char) (h : c2 ≠ '\n') :
    replCRLF ('\x0d' :: c2 :: rest2) = '\x0d' :: replCRLF (c2 :: rest2) := by
  rw [replCRLF_cons, if_pos rfl]
  show (if c2 = '\n' then '\n' :: replCRLF rest2
    else '\x0d' :: replCRLF (c2 :: rest2)) = '\x0d' :: replCRLF (c2 :: rest2)
  rw [if_neg h]

/-- Tab-bullet replacer on a non-tab head. -/
theorem replTabBullet_cons_ne (c : Char) (rest : List Char) (h : c ≠ '\t') :
    replTabBullet (c :: rest) = c :: replTabBullet rest := by
  rw [replTabBullet_cons, if_neg h]

/-- Tab-bullet replacer on a final tab. -/
theorem replTabBullet_tab_nil : replTabBullet ['\t'] = ['\t'] := by
  rw [replTabBullet_cons, if_pos rfl]

/-- Tab-bullet replacer on a tab-bullet pair. -/
theorem replTabBullet_tab_bullet (rest2 : List Char) :
    replTabBullet ('\t' :: '•' :: rest2) = '•' :: replTabBullet rest2 := by
  rw [replTabBullet_cons, if_pos rfl]
  show (if ('•' : Char) = '•' then '•' :: replTabBullet rest2
    else '\t' :: replTabBullet ('•' :: rest2)) = '•' :: replTabBullet rest2
  rw [if_pos rfl]

/-- Tab-bullet replacer on a tab not followed by a bullet. -/
theorem replTabBullet_tab_ne (c2 : Char) (rest2 : List Char) (h : c2 ≠ '•') :
    replTabBullet ('\t' :: c2 :: rest2) = '\t' :: replTabBullet (c2 :: rest2) := by
  rw [replTabBullet_cons, if_pos rfl]
  show (if c2 = '•' then '•' :: replTabBullet rest2
    else '\t' :: replTabBullet (c2 :: rest2)) = '\t' :: replTabBullet (c2 :: rest2)
  rw [if_neg h]

/-- Bullet-tab replacer on a non-bullet head. -/
theorem replBulletTab_cons_ne (c : Char) (rest : List Char) (h : c ≠ '•') :
    replBulletTab (c :: rest) = c :: replBulletTab rest := by
  rw [replBulletTab_cons, if_neg h]

/-- Bullet-tab replacer on a final bullet. -/
theorem replBulletTab_b_nil : replBulletTab ['•'] = ['•'] := by
  rw [replBulletTab_cons, if_pos rfl]

/-- Bullet-tab replacer on a bullet-tab pair. -/
theorem replBulletTab_b_tab (rest2 : List Char) :
    replBulletTab ('•' :: '\t' :: rest2) = '•' :: ' ' :: replBulletTab rest2 := by
  rw [replBulletTab_cons, if_pos rfl]
  show (if ('\t' : Char) = '\t' then '•' :: ' ' :: replBulletTab rest2
    else '•' :: replBulletTab ('\t' :: rest2)) = '•' :: ' ' :: replBulletTab rest2
  rw [if_pos rfl]

/-- Bullet-tab replacer on a bullet not followed by a tab. -/
theorem replBulletTab_b_ne (c2 : Char) (rest2 : List Char) (h : c2 ≠ '\t') :
    replBulletTab ('•' :: c2 :: rest2) = '•' :: replBulletTab (c2 :: rest2) := by
  rw [replBulletTab_cons, if_pos rfl]
  show (if c2 = '\t' then '•' :: ' ' :: replBulletTab rest2
    else '•' :: replBulletTab (c2 :: rest2)) = '•' :: replBulletTab (c2 :: rest2)
  rw [if_neg h]

/-- Bullet-two-space replacer on a non-bullet head. -/
theorem replBulletTwoSpace_cons_ne (c : Char) (rest : List Char) (h : c ≠ '•') :
    replBulletTwoSpace (c :: rest) = c :: replBulletTwoSpace rest := by
  rw [replBulletTwoSpace_cons, if_neg h]

/-- Bullet-two-space replacer on a final bullet. -/
theorem replBulletTwoSpace_b_nil : replBulletTwoSpace ['•'] = ['•'] := by
  rw [replBulletTwoSpace_cons, if_pos rfl]

/-- Bullet-two-space replacer on a bullet not followed by a space. -/
theorem replBulletTwoSpace_b_ne (c2 : Char) (rest2 : List Char) (h : c2 ≠ ' ') :
    replBulletTwoSpace ('•' :: c2 :: rest2) = '•' :: replBulletTwoSpace (c2 :: rest2) := by
  rw [replBulletTwoSpace_cons, if_pos rfl]
  show (if c2 = ' ' then
      match rest2 with
      | [] => '•' :: c2 :: []
      | c3 :: rest3 =>
        if c3 = ' ' then '•' :: ' ' :: replBulletTwoSpace rest3
        else '•' :: replBulletTwoSpace (c2 :: c3 :: rest3)
    else '•' :: replBulletTwoSpace (c2 :: rest2)) = '•' :: replBulletTwoSpace (c2 :: rest2)
  rw [if_neg h]

/-- Bullet-two-space replacer on a bullet-space pair ending the list. -/
theorem replBulletTwoSpace_bs_nil : replBulletTwoSpace ['•', ' '] = ['•', ' '] := by
  rw [replBulletTwoSpace_cons, if_pos rfl]
  rfl

/-- Bullet-two-space replacer on bullet, one space and a non-space. -/
theorem replBulletTwoSpace_bs_ne (c3 : Char) (rest3 : List Char) (h : c3 ≠ ' ') :
    replBulletTwoSpace ('•' :: ' ' :: c3 :: rest3)
      = '•' :: replBulletTwoSpace (' ' :: c3 :: rest3) := by
  rw [replBulletTwoSpace_cons, if_pos rfl]
  show (if (' ' : Char) = ' ' then
      match c3 :: rest3 with
      | [] => '•' :: ' ' :: []
      | c3 :: rest3 =>
        if c3 = ' ' then '•' :: ' ' :: replBulletTwoSpace rest3
        else '•' :: replBulletTwoSpace (' ' :: c3 :: rest3)
    else '•' :: replBulletTwoSpace (' ' :: c3 :: rest3))
      = '•' :: replBulletTwoSpace (' ' :: c3 :: rest3)
  rw [if_pos rfl]
  show (if c3 = ' ' then '•' :: ' ' :: replBulletTwoSpace rest3
    else '•' :: replBulletTwoSpace (' ' :: c3 :: rest3))
      = '•' :: replBulletTwoSpace (' ' :: c3 :: rest3)
  rw [if_neg h]

/-- Bullet-two-space replacer firing on bullet and two spaces. -/
theorem replBulletTwoSpace_fire (rest3 : List Char) :
    replBulletTwoSpace ('•' :: ' ' :: ' ' :: rest3)
      = '•' :: ' ' :: replBulletTwoSpace rest3 := by
  rw [replBulletTwoSpace_cons, if_pos rfl]
  show (if (' ' : Char) = ' ' then
      match ' ' :: rest3 with
      | [] => '•' :: ' ' :: []
      | c3 :: rest3 =>
        if c3 = ' ' then '•' :: ' ' :: replBulletTwoSpace rest3
        else '•' :: replBulletTwoSpace (' ' :: c3 :: rest3)
    else '•' :: replBulletTwoSpace (' ' :: ' ' :: rest3))
      = '•' :: ' ' :: replBulletTwoSpace rest3
  rw [if_pos rfl]
  show (if (' ' : Char) = ' ' then '•' :: ' ' :: replBulletTwoSpace rest3
    else '•' :: replBulletTwoSpace (' ' :: ' ' :: rest3))
      = '•' :: ' ' :: replBulletTwoSpace rest3
  rw [if_pos rfl]

/-- Characters of the CRLF stage come from the input or are line feeds. -/
theorem mem_replCRLF :
    ∀ (l : List Char), ∀ c ∈ replCRLF l, c ∈ l ∨ c = '\n' := by
  refine list_strong_ind (fun l => ∀ c ∈ replCRLF l, c ∈ l ∨ c = '\n') ?_
  intro l ih c hc
  match l with
  | [] =>
    rw [show replCRLF [] = [] from rfl] at hc
    exact absurd hc (List.not_mem_nil c)
  | a :: rest =>
    by_cases ha : a = '\x0d'
    · subst ha
      match rest with
      | [] =>
        rw [replCRLF_cr_nil] at hc
        exact Or.inl hc
      | c2 :: rest2 =>
        by_cases hc2 : c2 = '\n'
        · subst hc2
          rw [replCRLF_cr_nl] at hc
          rcases List.mem_cons.mp hc with h1 | h2
          · exact Or.inr h1
          · rcases ih rest2 (by simp only [List.length_cons]; omega) c h2 with h3 | h3
            · exact Or.inl (List.mem_cons_of_mem _ (List.mem_cons_of_mem _ h3))
            · exact Or.inr h3
        · rw [replCRLF_cr_ne _ _ hc2] at hc
          rcases List.mem_cons.mp hc with h1 | h2
          · exact Or.inl (List.mem_cons.mpr (Or.inl h1))
          · rcases ih (c2 :: rest2) (by simp only [List.length_cons]; omega) c h2 with h3 | h3
            · exact Or.inl (List.mem_cons_of_mem _ h3)
            · exact Or.inr h3
    · rw [replCRLF_cons_ne _ _ ha] at hc
      rcases List.mem_cons.mp hc with h1 | h2
      · exact Or.inl (List.mem_cons.mpr (Or.inl h1))
      · rcases ih rest (by simp only [List.length_cons]; omega) c h2 with h3 | h3
        · exact Or.inl (List.mem_cons_of_mem _ h3)
        · exact Or.inr h3

/-- Characters of the CR stage come from the input or are line feeds. -/
theorem mem_replCR : ∀ (l : List Char), ∀ c ∈ replCR l, c ∈ l ∨ c = '\n' := by
  intro l
  induction l with
  | nil =>
    intro c hc
    rw [show replCR [] = [] from rfl] at hc
    exact absurd hc (List.not_mem_nil c)
  | cons a rest ih =>
    intro c hc
    rw [replCR_cons] at hc
    rcases List.mem_cons.mp hc with h1 | h2
    · by_cases ha : a = '\x0d'
      · rw [if_pos ha] at h1
        exact Or.inr h1
      · rw [if_neg ha] at h1
        exact Or.inl (List.mem_cons.mpr (Or.inl h1))
    · rcases ih c h2 with h3 | h3
      · exact Or.inl (List.mem_cons_of_mem _ h3)
      · exact Or.inr h3

/-- The CR stage's output has no carriage return. -/
theorem replCR_no_cr : ∀ (l : List Char), '\x0d' ∉ replCR l := by
  intro l
  induction l with
  | nil =>
    rw [show replCR [] = [] from rfl]
    exact List.not_mem_nil _
  | cons a rest ih =>
    rw [replCR_cons]
    intro hc
    rcases List.mem_cons.mp hc with h1 | h2
    · by_cases ha : a = '\x0d'
      · rw [if_pos ha] at h1
        exact absurd h1 (by decide)
      · rw [if_neg ha] at h1
        exact ha h1.symm
    · exact ih h2

/-- Characters of the tab-bullet stage come from the input or are bullets. -/
theorem mem_replTabBullet :
    ∀ (l : List Char), ∀ c ∈ replTabBullet l, c ∈ l ∨ c = '•' := by
  refine list_strong_ind (fun l => ∀ c ∈ replTabBullet l, c ∈ l ∨ c = '•') ?_
  intro l ih c hc
  match l with
  | [] =>
    rw [show replTabBullet [] = [] from rfl] at hc
    exact absurd hc (List.not_mem_nil c)
  | a :: rest =>
    by_cases ha : a = '\t'
    · subst ha
      match rest with
      | [] =>
        rw [replTabBullet_tab_nil] at hc
        exact Or.inl hc
      | c2 :: rest2 =>
        by_cases hc2 : c2 = '•'
        · subst hc2
          rw [replTabBullet_tab_bullet] at hc
          rcases List.mem_cons.mp hc with h1 | h2
          · exact Or.inr h1
          · rcases ih rest2 (by simp only [List.length_cons]; omega) c h2 with h3 | h3
            · exact Or.inl (List.mem_cons_of_mem _ (List.mem_cons_of_mem _ h3))
            · exact Or.inr h3
        · rw [replTabBullet_tab_ne _ _ hc2] at hc
          rcases List.mem_cons.mp hc with h1 | h2
          · exact Or.inl (List.mem_cons.mpr (Or.inl h1))
          · rcases ih (c2 :: rest2) (by simp only [List.length_cons]; omega) c h2 with h3 | h3
            · exact Or.inl (List.mem_cons_of_mem _ h3)
            · exact Or.inr h3
    · rw [replTabBullet_cons_ne _ _ ha] at hc
      rcases List.mem_cons.mp hc with h1 | h2
      · exact Or.inl (List.mem_cons.mpr (Or.inl h1))
      · rcases ih rest (by simp only [List.length_cons]; omega) c h2 with h3 | h3
        · exact Or.inl (List.mem_cons_of_mem _ h3)
        · exact Or.inr h3

/-- Characters of the tab stage come from the input or are spaces. -/
theorem mem_replTab : ∀ (l : List Char), ∀ c ∈ replTab l, c ∈ l ∨ c = ' ' := by
  intro l
  induction l with
  | nil =>
    intro c hc
    rw [show replTab [] = [] from rfl] at hc
    exact absurd hc (List.not_mem_nil c)
  | cons a rest ih =>
    intro c hc
    rw [replTab_cons] at hc
    by_cases ha : a = '\t'
    · rw [if_pos ha] at hc
      rcases List.mem_cons.mp hc with h1 | hc2
      · exact Or.inr h1
      rcases List.mem_cons.mp hc2 with h1 | hc3
      · exact Or.inr h1
      rcases List.mem_cons.mp hc3 with h1 | hc4
      · exact Or.inr h1
      rcases List.mem_cons.mp hc4 with h1 | hc5
      · exact Or.inr h1
      rcases ih c hc5 with h3 | h3
      · exact Or.inl (List.mem_cons_of_mem _ h3)
      · exact Or.inr h3
    · rw [if_neg ha] at hc
      rcases List.mem_cons.mp hc with h1 | h2
      · exact Or.inl (List.mem_cons.mpr (Or.inl h1))
      · rcases ih c h2 with h3 | h3
        · exact Or.inl (List.mem_cons_of_mem _ h3)
        · exact Or.inr h3

/-- The tab stage's output has no tab. -/
theorem replTab_no_tab : ∀ (l : List Char), '\t' ∉ replTab l := by
  intro l
  induction l with
  | nil =>
    rw [show replTab [] = [] from rfl]
    exact List.not_mem_nil _
  | cons a rest ih =>
    rw [replTab_cons]
    intro hc
    by_cases ha : a = '\t'
    · rw [if_pos ha] at hc
      rcases List.mem_cons.mp hc with h1 | hc2
      · exact absurd h1 (by decide)
      rcases List.mem_cons.mp hc2 with h1 | hc3
      · exact absurd h1 (by decide)
      rcases List.mem_cons.mp hc3 with h1 | hc4
      · exact absurd h1 (by decide)
      rcases List.mem_cons.mp hc4 with h1 | hc5
      · exact absurd h1 (by decide)
      exact ih hc5
    · rw [if_neg ha] at hc
      rcases List.mem_cons.mp hc with h1 | h2
      · exact ha h1.symm
      · exact ih h2

/-- Characters of the bullet-tab stage come from the input, or are bullets
or spaces. -/
theorem mem_replBulletTab :
    ∀ (l : List Char), ∀ c ∈ replBulletTab l, c ∈ l ∨ c = '•' ∨ c = ' ' := by
  refine list_strong_ind (fun l => ∀ c ∈ replBulletTab l, c ∈ l ∨ c = '•' ∨ c = ' ') ?_
  intro l ih c hc
  match l with
  | [] =>
    rw [show replBulletTab [] = [] from rfl] at hc
    exact absurd hc (List.not_mem_nil c)
  | a :: rest =>
    by_cases ha : a = '•'
    · subst ha
      match rest with
      | [] =>
        rw [replBulletTab_b_nil] at hc
        exact Or.inl hc
      | c2 :: rest2 =>
        by_cases hc2 : c2 = '\t'
        · subst hc2
          rw [replBulletTab_b_tab] at hc
          rcases List.mem_cons.mp hc with h1 | h2
          · exact Or.inr (Or.inl h1)
          rcases List.mem_cons.mp h2 with h1 | h2b
          · exact Or.inr (Or.inr h1)
          rcases ih rest2 (by simp only [List.length_cons]; omega) c h2b with h3 | h3
          · exact Or.inl (List.mem_cons_of_mem _ (List.mem_cons_of_mem _ h3))
          · exact Or.inr h3
        · rw [replBulletTab_b_ne _ _ hc2] at hc
          rcases List.mem_cons.mp hc with h1 | h2
          · exact Or.inl (List.mem_cons.mpr (Or.inl h1))
          · rcases ih (c2 :: rest2) (by simp only [List.length_cons]; omega) c h2 with h3 | h3
            · exact Or.inl (List.mem_cons_of_mem _ h3)
            · exact Or.inr h3
    · rw [replBulletTab_cons_ne _ _ ha] at hc
      rcases List.mem_cons.mp hc with h1 | h2
      · exact Or.inl (List.mem_cons.mpr (Or.inl h1))
      · rcases ih rest (by simp only [List.length_cons]; omega) c h2 with h3 | h3
        · exact Or.inl (List.mem_cons_of_mem _ h3)
        · exact Or.inr h3

/-- Characters of the bullet-two-space stage come from the input, or are
bullets or spaces. -/
theorem mem_replBulletTwoSpace :
    ∀ (l : List Char), ∀ c ∈ replBulletTwoSpace l, c ∈ l ∨ c = '•' ∨ c = ' ' := by
  refine list_strong_ind
    (fun l => ∀ c ∈ replBulletTwoSpace l, c ∈ l ∨ c = '•' ∨ c = ' ') ?_
  intro l ih c hc
  match l with
  | [] =>
    rw [show replBulletTwoSpace [] = [] from rfl] at hc
    exact absurd hc (List.not_mem_nil c)
  | a :: rest =>
    by_cases ha : a = '•'
    · subst ha
      match rest with
      | [] =>
        rw [replBulletTwoSpace_b_nil] at hc
        exact Or.inl hc
      | c2 :: rest2 =>
        by_cases hc2 : c2 = ' '
        · subst hc2
          match rest2 with
          | [] =>
            rw [replBulletTwoSpace_bs_nil] at hc
            exact Or.inl hc
          | c3 :: rest3 =>
            by_cases hc3 : c3 = ' '
            · subst hc3
              rw [replBulletTwoSpace_fire] at hc
              rcases List.mem_cons.mp hc with h1 | h2
              · exact Or.inr (Or.inl h1)
              rcases List.mem_cons.mp h2 with h1 | h2b
              · exact Or.inr (Or.inr h1)
              rcases ih rest3 (by simp only [List.length_cons]; omega) c h2b with h3 | h3
              · exact Or.inl (List.mem_cons_of_mem _ (List.mem_cons_of_mem _
                  (List.mem_cons_of_mem _ h3)))
              · exact Or.inr h3
            · rw [replBulletTwoSpace_bs_ne _ _ hc3] at hc
              rcases List.mem_cons.mp hc with h1 | h2
              · exact Or.inl (List.mem_cons.mpr (Or.inl h1))
              · rcases ih (' ' :: c3 :: rest3) (by simp only [List.length_cons]; omega)
                  c h2 with h3 | h3
                · exact Or.inl (List.mem_cons_of_mem _ h3)
                · exact Or.inr h3
        · rw [replBulletTwoSpace_b_ne _ _ hc2] at hc
          rcases List.mem_cons.mp hc with h1 | h2
          · exact Or.inl (List.mem_cons.mpr (Or.inl h1))
          · rcases ih (c2 :: rest2) (by simp only [List.length_cons]; omega) c h2 with h3 | h3
            · exact Or.inl (List.mem_cons_of_mem _ h3)
            · exact Or.inr h3
    · rw [replBulletTwoSpace_cons_ne _ _ ha] at hc
      rcases List.mem_cons.mp hc with h1 | h2
      · exact Or.inl (List.mem_cons.mpr (Or.inl h1))
      · rcases ih rest (by simp only [List.length_cons]; omega) c h2 with h3 | h3
        · exact Or.inl (List.mem_cons_of_mem _ h3)
        · exact Or.inr h3

/-- Characters of the NBSP stage come from the input or are spaces. -/
theorem mem_replNBSP : ∀ (l : List Char), ∀ c ∈ replNBSP l, c ∈ l ∨ c = ' ' := by
  intro l
  induction l with
  | nil =>
    intro c hc
    rw [show replNBSP [] = [] from rfl] at hc
    exact absurd hc (List.not_mem_nil c)
  | cons a rest ih =>
    intro c hc
    rw [replNBSP_cons] at hc
    rcases List.mem_cons.mp hc with h1 | h2
    · by_cases ha : a = '\u00a0'
      · rw [if_pos ha] at h1
        exact Or.inr h1
      · rw [if_neg ha] at h1
        exact Or.inl (List.mem_cons.mpr (Or.inl h1))
    · rcases ih c h2 with h3 | h3
      · exact Or.inl (List.mem_cons_of_mem _ h3)
      · exact Or.inr h3

/-- The NBSP stage's output has no non-breaking space. -/
theorem replNBSP_no_nbsp : ∀ (l : List Char), '\u00a0' ∉ replNBSP l := by
  intro l
  induction l with
  | nil =>
    rw [show replNBSP [] = [] from rfl]
    exact List.not_mem_nil _
  | cons a rest ih =>
    rw [replNBSP_cons]
    intro hc
    rcases List.mem_cons.mp hc with h1 | h2
    · by_cases ha : a = '\u00a0'
      · rw [if_pos ha] at h1
        exact absurd h1 (by decide)
      · rw [if_neg ha] at h1
        exact ha h1.symm
    · exact ih h2

/-- Characters of a stripped list come from the input. -/
theorem mem_pyStrip (l : List Char) (c : Char) (h : c ∈ pyStrip l) : c ∈ l :=
  (pyStrip_isInfix l).sublist.subset h

/-- Characters of the trailing-quote collapse come from the input or are
double quotes. -/
theorem mem_collapseTrailQuotes (l : List Char) (c : Char)
    (h : c ∈ collapseTrailQuotes l) : c ∈ l ∨ c = '"' := by
  simp only [collapseTrailQuotes] at h
  by_cases hrun : 2 ≤ (l.reverse.takeWhile (fun c => c == '"')).length
  · rw [if_pos hrun] at h
    rcases List.mem_cons.mp (List.mem_reverse.mp h) with h1 | h2
    · exact Or.inr h1
    · exact Or.inl (List.mem_reverse.mp
        ((List.dropWhile_suffix _).sublist.subset h2))
  · rw [if_neg hrun] at h
    exact Or.inl h

/-- Characters of the newline capper come from the input or are line
feeds. -/
theorem mem_capNLAux :
    ∀ (l : List Char) (b : Bool), ∀ c ∈ capNLAux b l, c ∈ l ∨ c = '\n' := by
  refine list_strong_ind (fun l => ∀ (b : Bool), ∀ c ∈ capNLAux b l, c ∈ l ∨ c = '\n') ?_
  intro l ih b c hc
  match l with
  | [] =>
    rw [show capNLAux b [] = [] from (by cases b <;> rfl)] at hc
    exact absurd hc (List.not_mem_nil c)
  | a :: rest =>
    rw [capNLAux_cons] at hc
    by_cases ha : a = '\n'
    · rw [if_pos ha] at hc
      cases b with
      | true =>
        rw [if_pos rfl] at hc
        rcases ih rest (by simp only [List.length_cons]; omega) true c hc with h3 | h3
        · exact Or.inl (List.mem_cons_of_mem _ h3)
        · exact Or.inr h3
      | false =>
        rw [if_neg (fun hcon => Bool.noConfusion hcon)] at hc
        match rest with
        | [] =>
          rcases List.mem_cons.mp hc with h1 | h2
          · exact Or.inr h1
          · exact absurd h2 (List.not_mem_nil c)
        | c2 :: rest2 =>
          have hred : (match c2 :: rest2 with
              | [] => ['\n']
              | c2 :: rest2 =>
                if c2 = '\n' then '\n' :: '\n' :: capNLAux true rest2
                else '\n' :: capNLAux false (c2 :: rest2)) =
              (if c2 = '\n' then '\n' :: '\n' :: capNLAux true rest2
               else '\n' :: capNLAux false (c2 :: rest2)) := rfl
          rw [hred] at hc
          by_cases hc2 : c2 = '\n'
          · rw [if_pos hc2] at hc
            rcases List.mem_cons.mp hc with h1 | h2
            · exact Or.inr h1
            rcases List.mem_cons.mp h2 with h1 | h2b
            · exact Or.inr h1
            rcases ih rest2 (by simp only [List.length_cons]; omega) true c h2b with h3 | h3
            · exact Or.inl (List.mem_cons_of_mem _ (List.mem_cons_of_mem _ h3))
            · exact Or.inr h3
          · rw [if_neg hc2] at hc
            rcases List.mem_cons.mp hc with h1 | h2
            · exact Or.inr h1
            · rcases ih (c2 :: rest2) (by simp only [List.length_cons]; omega)
                false c h2 with h3 | h3
              · exact Or.inl (List.mem_cons_of_mem _ h3)
              · exact Or.inr h3
    · rw [if_neg ha] at hc
      rcases List.mem_cons.mp hc with h1 | h2
      · exact Or.inl (List.mem_cons.mpr (Or.inl h1))
      · rcases ih rest (by simp only [List.length_cons]; omega) false c h2 with h3 | h3
        · exact Or.inl (List.mem_cons_of_mem _ h3)
        · exact Or.inr h3

/-- NFKC is the identity on NBSP-free input. -/
theorem nfkcL_eq_self (l : List Char) (h : '\u00a0' ∉ l) : nfkcL l = l := by
  induction l with
  | nil => rfl
  | cons a rest ih =>
    rw [show nfkcL (a :: rest) = nfkcChar a :: nfkcL rest from rfl]
    have ha : a ≠ '\u00a0' := fun hh => h (by rw [hh]; exact List.mem_cons_self _ _)
    rw [show nfkcChar a = a from by unfold nfkcChar; rw [if_neg ha]]
    rw [ih (fun hm => h (List.mem_cons_of_mem _ hm))]

/-- The CRLF stage is the identity on CR-free input. -/
theorem replCRLF_eq_self (l : List Char) (h : '\x0d' ∉ l) : replCRLF l = l := by
  induction l with
  | nil => rfl
  | cons a rest ih =>
    have ha : a ≠ '\x0d' := fun hh => h (by rw [hh]; exact List.mem_cons_self _ _)
    rw [replCRLF_cons_ne _ _ ha, ih (fun hm => h (List.mem_cons_of_mem _ hm))]

/-- The CR stage is the identity on CR-free input. -/
theorem replCR_eq_self (l : List Char) (h : '\x0d' ∉ l) : replCR l = l := by
  induction l with
  | nil => rfl
  | cons a rest ih =>
    have ha : a ≠ '\x0d' := fun hh => h (by rw [hh]; exact List.mem_cons_self _ _)
    rw [replCR_cons, if_neg ha, ih (fun hm => h (List.mem_cons_of_mem _ hm))]

/-- The tab-bullet stage is the identity on tab-free input. -/
theorem replTabBullet_eq_self (l : List Char) (h : '\t' ∉ l) : replTabBullet l = l := by
  induction l with
  | nil => rfl
  | cons a rest ih =>
    have ha : a ≠ '\t' := fun hh => h (by rw [hh]; exact List.mem_cons_self _ _)
    rw [replTabBullet_cons_ne _ _ ha, ih (fun hm => h (List.mem_cons_of_mem _ hm))]

/-- The tab stage is the identity on tab-free input. -/
theorem replTab_eq_self (l : List Char) (h : '\t' ∉ l) : replTab l = l := by
  induction l with
  | nil => rfl
  | cons a rest ih =>
    have ha : a ≠ '\t' := fun hh => h (by rw [hh]; exact List.mem_cons_self _ _)
    rw [replTab_cons, if_neg ha, ih (fun hm => h (List.mem_cons_of_mem _ hm))]

/-- The bullet-tab stage is the identity on tab-free input. -/
theorem replBulletTab_eq_self (l : List Char) (h : '\t' ∉ l) : replBulletTab l = l := by
  induction l with
  | nil => rfl
  | cons a rest ih =>
    by_cases ha : a = '•'
    · subst ha
      cases rest with
      | nil => exact replBulletTab_b_nil
      | cons c2 rest2 =>
        have hc2 : c2 ≠ '\t' := fun hh =>
          h (by rw [hh]; exact List.mem_cons_of_mem _ (List.mem_cons_self _ _))
        rw [replBulletTab_b_ne _ _ hc2, ih (fun hm => h (List.mem_cons_of_mem _ hm))]
    · rw [replBulletTab_cons_ne _ _ ha, ih (fun hm => h (List.mem_cons_of_mem _ hm))]

/-- The bullet-two-space stage is the identity when the input has no
bullet followed by two spaces. -/
theorem replBulletTwoSpace_eq_self (l : List Char)
    (h : ¬ (['•', ' ', ' '] <:+: l)) : replBulletTwoSpace l = l := by
  induction l with
  | nil => rfl
  | cons a rest ih =>
    have hrest : ¬ (['•', ' ', ' '] <:+: rest) := fun hi => h (List.infix_cons hi)
    by_cases ha : a = '•'
    · subst ha
      cases rest with
      | nil => exact replBulletTwoSpace_b_nil
      | cons c2 rest2 =>
        by_cases hc2 : c2 = ' '
        · subst hc2
          cases rest2 with
          | nil => exact replBulletTwoSpace_bs_nil
          | cons c3 rest3 =>
            by_cases hc3 : c3 = ' '
            · subst hc3
              exact absurd ⟨[], rest3, rfl⟩ h
            · rw [replBulletTwoSpace_bs_ne _ _ hc3, ih hrest]
        · rw [replBulletTwoSpace_b_ne _ _ hc2, ih hrest]
    · rw [replBulletTwoSpace_cons_ne _ _ ha, ih hrest]

/-- The NBSP stage is the identity on NBSP-free input. -/
theorem replNBSP_eq_self (l : List Char) (h : '\u00a0' ∉ l) : replNBSP l = l := by
  induction l with
  | nil => rfl
  | cons a rest ih =>
    have ha : a ≠ '\u00a0' := fun hh => h (by rw [hh]; exact List.mem_cons_self _ _)
    rw [replNBSP_cons, if_neg ha, ih (fun hm => h (List.mem_cons_of_mem _ hm))]

/-- The newline capper, from either state (from the drop state only when the
head is no line feed), is the identity when no three consecutive line feeds
occur. -/
theorem capNLAux_eq_self :
    ∀ (l : List Char), ¬ (['\n', '\n', '\n'] <:+: l) →
      capNLAux false l = l ∧ (l.head? ≠ some '\n' → capNLAux true l = l) := by
  refine list_strong_ind (fun l => ¬ (['\n', '\n', '\n'] <:+: l) →
    capNLAux false l = l ∧ (l.head? ≠ some '\n' → capNLAux true l = l)) ?_
  intro l ih h
  match l with
  | [] => exact ⟨rfl, fun _ => rfl⟩
  | a :: rest =>
    by_cases ha : a = '\n'
    · subst ha
      constructor
      · rw [capNLAux_cons, if_pos rfl, if_neg (fun hcon => Bool.noConfusion hcon)]
        match rest with
        | [] => rfl
        | c2 :: rest2 =>
          have hred : (match c2 :: rest2 with
              | [] => ['\n']
              | c2 :: rest2 =>
                if c2 = '\n' then '\n' :: '\n' :: capNLAux true rest2
                else '\n' :: capNLAux false (c2 :: rest2)) =
              (if c2 = '\n' then '\n' :: '\n' :: capNLAux true rest2
               else '\n' :: capNLAux false (c2 :: rest2)) := rfl
          rw [hred]
          by_cases hc2 : c2 = '\n'
          · subst hc2
            rw [if_pos rfl]
            have hnr : ¬ (['\n', '\n', '\n'] <:+: rest2) :=
              fun hi => h (List.infix_cons (List.infix_cons hi))
            have hhd : rest2.head? ≠ some '\n' := by
              intro hh
              cases rest2 with
              | nil => simp at hh
              | cons c3 r3 =>
                simp only [List.head?_cons, Option.some.injEq] at hh
                subst hh
                exact h ⟨[], r3, rfl⟩
            have := (ih rest2 (by simp only [List.length_cons]; omega) hnr).2 hhd
            rw [this]
          · rw [if_neg hc2]
            have hnr : ¬ (['\n', '\n', '\n'] <:+: c2 :: rest2) :=
              fun hi => h (List.infix_cons hi)
            have := (ih (c2 :: rest2) (by simp only [List.length_cons]; omega) hnr).1
            rw [this]
      · intro hhd
        exact absurd rfl hhd
    · have hnr : ¬ (['\n', '\n', '\n'] <:+: rest) := fun hi => h (List.infix_cons hi)
      have h1 : capNLAux false (a :: rest) = a :: rest := by
        rw [capNLAux_cons, if_neg ha]
        rw [(ih rest (by simp only [List.length_cons]; omega) hnr).1]
      refine ⟨h1, fun _ => ?_⟩
      rw [capNLAux_cons, if_neg ha]
      rw [(ih rest (by simp only [List.length_cons]; omega) hnr).1]

/-- The newline capper is the identity when no three consecutive line feeds
occur. -/
theorem capNL_eq_self (l : List Char) (h : hasTripleNL l = false) : capNL l = l := by
  have hni : ¬ (['\n', '\n', '\n'] <:+: l) := by
    rw [← hasTripleNL_iff]
    simp [h]
  exact (capNLAux_eq_self l hni).1

/-- A list ends in two double quotes exactly when the reversed list's
leading quote run has length at least two. -/
theorem quotepair_suffix_iff (l : List Char) :
    ['"', '"'] <:+ l ↔ 2 ≤ (l.reverse.takeWhile (fun c => c == '"')).length := by
  constructor
  · intro h
    have h2 : ['"', '"'] <+: l.reverse := by
      have h3 := List.reverse_prefix.mpr h
      simpa using h3
    obtain ⟨t, ht⟩ := h2
    rw [← ht]
    simp [List.takeWhile_cons]
  · intro h
    have hpre : l.reverse.takeWhile (fun c => c == '"') <+: l.reverse :=
      List.takeWhile_prefix _
    match hw : l.reverse.takeWhile (fun c => c == '"') with
    | [] => rw [hw] at h; simp at h
    | [y] => rw [hw] at h; simp at h
    | y1 :: y2 :: t =>
      have hy1 : y1 = '"' := by
        have hm : y1 ∈ l.reverse.takeWhile (fun c => c == '"') := by
          rw [hw]; exact List.mem_cons_self _ _
        have hb := List.mem_takeWhile_imp hm
        simp only [beq_iff_eq] at hb
        exact hb
      have hy2 : y2 = '"' := by
        have hm : y2 ∈ l.reverse.takeWhile (fun c => c == '"') := by
          rw [hw]; exact List.mem_cons_of_mem _ (List.mem_cons_self _ _)
        have hb := List.mem_takeWhile_imp hm
        simp only [beq_iff_eq] at hb
        exact hb
      rw [hw, hy1, hy2] at hpre
      have hq : ['"', '"'] <+: l.reverse :=
        List.IsPrefix.trans ⟨t, rfl⟩ hpre
      have hq3 : (['"', '"'] : List Char).reverse <+: l.reverse := by simpa using hq
      exact List.reverse_prefix.mp hq3

/-- The trailing-quote collapse is the identity when the input does not end
in two double quotes. -/
theorem cTQ_eq_self (l : List Char) (h : ¬ (['"', '"'] <:+ l)) :
    collapseTrailQuotes l = l := by
  simp only [collapseTrailQuotes]
  rw [if_neg (fun hrun => h ((quotepair_suffix_iff l).mpr hrun))]

/-- The trailing-quote collapse never leaves two double quotes at the end. -/
theorem cTQ_no_quotepair_suffix (l : List Char) :
    ¬ (['"', '"'] <:+ collapseTrailQuotes l) := by
  intro hsuf
  simp only [collapseTrailQuotes] at hsuf
  by_cases hrun : 2 ≤ (l.reverse.takeWhile (fun c => c == '"')).length
  · rw [if_pos hrun] at hsuf
    have hpre : ['"', '"'] <+: ('"' :: l.reverse.dropWhile (fun c => c == '"')) := by
      have h1 : (['"', '"'] : List Char).reverse
          <:+ ('"' :: l.reverse.dropWhile (fun c => c == '"')).reverse := by
        simpa using hsuf
      exact List.reverse_suffix.mp h1
    have h2 := (List.cons_prefix_iff.mp hpre).2
    obtain ⟨t2, ht2⟩ := h2
    have hhead : (l.reverse.dropWhile (fun c => c == '"')).head? = some '"' := by
      rw [← ht2]; rfl
    have h3 := head_dropWhile_false _ _ _ hhead
    simp at h3
  · rw [if_neg hrun] at hsuf
    exact hrun ((quotepair_suffix_iff l).mp hsuf)

/-- The newline capper keeps a non-newline head. -/
theorem capNL_head (l : List Char) (c : Char) (hh : l.head? = some c) (hc : c ≠ '\n') :
    (capNL l).head? = some c := by
  cases l with
  | nil => simp at hh
  | cons a rest =>
    simp only [List.head?_cons, Option.some.injEq] at hh
    subst hh
    unfold capNL
    rw [capNLAux_cons, if_neg hc]
    rfl

/-- The newline capper keeps a non-newline last character. -/
theorem capNLAux_getLast :
    ∀ (l : List Char) (b : Bool) (c : Char), l.getLast? = some c → c ≠ '\n' →
      (capNLAux b l).getLast? = some c := by
  refine list_strong_ind (fun l => ∀ (b : Bool) (c : Char), l.getLast? = some c →
    c ≠ '\n' → (capNLAux b l).getLast? = some c) ?_
  intro l ih b c hl hc
  match l with
  | [] => simp at hl
  | a :: rest =>
    rw [capNLAux_cons]
    by_cases ha : a = '\n'
    · subst ha
      rw [if_pos rfl]
      cases b with
      | true =>
        rw [if_pos rfl]
        cases rest with
        | nil =>
          simp only [List.getLast?_singleton, Option.some.injEq] at hl
          exact absurd hl.symm hc
        | cons c2 rest2 =>
          have hl2 : (c2 :: rest2).getLast? = some c := by
            rw [List.getLast?_cons_cons] at hl; exact hl
          exact ih (c2 :: rest2) (by simp only [List.length_cons]; omega) true c hl2 hc
      | false =>
        rw [if_neg (fun hcon => Bool.noConfusion hcon)]
        cases rest with
        | nil =>
          simp only [List.getLast?_singleton, Option.some.injEq] at hl
          exact absurd hl.symm hc
        | cons c2 rest2 =>
          have hred : (match c2 :: rest2 with
              | [] => ['\n']
              | c2 :: rest2 =>
                if c2 = '\n' then '\n' :: '\n' :: capNLAux true rest2
                else '\n' :: capNLAux false (c2 :: rest2)) =
              (if c2 = '\n' then '\n' :: '\n' :: capNLAux true rest2
               else '\n' :: capNLAux false (c2 :: rest2)) := rfl
          rw [hred]
          have hl2 : (c2 :: rest2).getLast? = some c := by
            rw [List.getLast?_cons_cons] at hl; exact hl
          by_cases hc2 : c2 = '\n'
          · subst hc2
            rw [if_pos rfl]
            cases rest2 with
            | nil =>
              simp only [List.getLast?_singleton, Option.some.injEq] at hl2
              exact absurd hl2.symm hc
            | cons c3 rest3 =>
              have hl3 : (c3 :: rest3).getLast? = some c := by
                rw [List.getLast?_cons_cons] at hl2; exact hl2
              have hrec := ih (c3 :: rest3) (by simp only [List.length_cons]; omega)
                true c hl3 hc
              rw [List.getLast?_cons_cons]
              cases hM : capNLAux true (c3 :: rest3) with
              | nil => rw [hM] at hrec; simp at hrec
              | cons m ms =>
                rw [hM] at hrec
                rw [List.getLast?_cons_cons]
                exact hrec
          · rw [if_neg hc2]
            have hrec := ih (c2 :: rest2) (by simp only [List.length_cons]; omega)
              false c hl2 hc
            cases hM : capNLAux false (c2 :: rest2) with
            | nil => rw [hM] at hrec; simp at hrec
            | cons m ms =>
              rw [hM] at hrec
              rw [List.getLast?_cons_cons]
              exact hrec
    · rw [if_neg ha]
      cases rest with
      | nil =>
        simp only [List.getLast?_singleton, Option.some.injEq] at hl
        rw [show capNLAux false [] = [] from rfl]
        simp [hl]
      | cons c2 rest2 =>
        have hl2 : (c2 :: rest2).getLast? = some c := by
          rw [List.getLast?_cons_cons] at hl; exact hl
        have hrec := ih (c2 :: rest2) (by simp only [List.length_cons]; omega)
          false c hl2 hc
        cases hM : capNLAux false (c2 :: rest2) with
        | nil => rw [hM] at hrec; simp at hrec
        | cons m ms =>
          rw [hM] at hrec
          rw [List.getLast?_cons_cons]
          exact hrec

/-- The newline capper preserves the absence of outer whitespace. -/
theorem capNL_outerWS (l : List Char) (h : hasOuterWS l = false) :
    hasOuterWS (capNL l) = false := by
  unfold hasOuterWS at h ⊢
  rw [Bool.or_eq_false_iff] at h ⊢
  obtain ⟨h1, h2⟩ := h
  constructor
  · cases hh : l.head? with
    | none =>
      have hnil : l = [] := List.head?_eq_none_iff.mp hh
      subst hnil
      rfl
    | some c =>
      have hcs : pyIsSpace c = false := by rw [hh] at h1; exact h1
      have hc : c ≠ '\n' := fun hceq => by
        rw [hceq] at hcs; exact absurd hcs (by decide)
      rw [capNL_head l c hh hc]
      exact hcs
  · cases hh : l.getLast? with
    | none =>
      have hnil : l = [] := List.getLast?_eq_none_iff.mp hh
      subst hnil
      rfl
    | some c =>
      have hcs : pyIsSpace c = false := by rw [hh] at h2; exact h2
      have hc : c ≠ '\n' := fun hceq => by
        rw [hceq] at hcs; exact absurd hcs (by decide)
      have hgl : (capNL l).getLast? = some c := capNLAux_getLast l false c hh hc
      rw [hgl]
      exact hcs

/-- The trailing-quote collapse preserves the absence of outer whitespace. -/
theorem cTQ_outerWS (l : List Char) (h : hasOuterWS l = false) :
    hasOuterWS (collapseTrailQuotes l) = false := by
  unfold hasOuterWS at h
  rw [Bool.or_eq_false_iff] at h
  obtain ⟨h1, h2⟩ := h
  by_cases hrun : 2 ≤ (l.reverse.takeWhile (fun c => c == '"')).length
  · have hout : collapseTrailQuotes l
        = ('"' :: l.reverse.dropWhile (fun c => c == '"')).reverse := by
      simp only [collapseTrailQuotes]
      rw [if_pos hrun]
    rw [hout]
    unfold hasOuterWS
    rw [Bool.or_eq_false_iff]
    constructor
    · rw [List.head?_reverse]
      cases hrest : l.reverse.dropWhile (fun c => c == '"') with
      | nil => rfl
      | cons m ms =>
        have hsuf : (m :: ms) <:+ l.reverse := by
          rw [← hrest]; exact List.dropWhile_suffix _
        have hgl : (m :: ms).getLast? = l.reverse.getLast? :=
          suffix_getLast _ _ hsuf (by simp)
        rw [List.getLast?_reverse] at hgl
        rw [List.getLast?_cons_cons, hgl]
        exact h1
    · rw [List.getLast?_reverse]
      rfl
  · have hout : collapseTrailQuotes l = l := by
      simp only [collapseTrailQuotes]
      rw [if_neg hrun]
    rw [hout]
    unfold hasOuterWS
    rw [Bool.or_eq_false_iff]
    exact ⟨h1, h2⟩

/-- If the keep-state capper returns the empty list, the input was empty. -/
theorem capNLAux_false_nil_inv (l : List Char) (h : capNLAux false l = []) : l = [] := by
  cases l with
  | nil => rfl
  | cons a rest =>
    rw [capNLAux_cons] at h
    by_cases ha : a = '\n'
    · rw [if_pos ha, if_neg (fun hcon => Bool.noConfusion hcon)] at h
      cases rest with
      | nil => exact absurd h (by simp)
      | cons c2 rest2 =>
        have hred : (match c2 :: rest2 with
            | [] => ['\n']
            | c2 :: rest2 =>
              if c2 = '\n' then '\n' :: '\n' :: capNLAux true rest2
              else '\n' :: capNLAux false (c2 :: rest2)) =
            (if c2 = '\n' then '\n' :: '\n' :: capNLAux true rest2
             else '\n' :: capNLAux false (c2 :: rest2)) := rfl
        rw [hred] at h
        by_cases hc2 : c2 = '\n'
        · rw [if_pos hc2] at h
          exact absurd h (by simp)
        · rw [if_neg hc2] at h
          exact absurd h (by simp)
    · rw [if_neg ha] at h
      exact absurd h (by simp)

/-- If the keep-state capper returns one non-newline character, the input
was that character alone. -/
theorem capNLAux_false_singleton (l : List Char) (d : Char) (hd : d ≠ '\n')
    (h : capNLAux false l = [d]) : l = [d] := by
  cases l with
  | nil =>
    rw [show capNLAux false [] = [] from rfl] at h
    exact absurd h (by simp)
  | cons a rest =>
    rw [capNLAux_cons] at h
    by_cases ha : a = '\n'
    · rw [if_pos ha, if_neg (fun hcon => Bool.noConfusion hcon)] at h
      cases rest with
      | nil =>
        injection h with h1 h2
        exact absurd h1.symm hd
      | cons c2 rest2 =>
        have hred : (match c2 :: rest2 with
            | [] => ['\n']
            | c2 :: rest2 =>
              if c2 = '\n' then '\n' :: '\n' :: capNLAux true rest2
              else '\n' :: capNLAux false (c2 :: rest2)) =
            (if c2 = '\n' then '\n' :: '\n' :: capNLAux true rest2
             else '\n' :: capNLAux false (c2 :: rest2)) := rfl
        rw [hred] at h
        by_cases hc2 : c2 = '\n'
        · rw [if_pos hc2] at h
          injection h with h1 h2
          exact absurd h2 (by simp)
        · rw [if_neg hc2] at h
          injection h with h1 h2
          exact absurd h1.symm hd
    · rw [if_neg ha] at h
      injection h with h1 h2
      rw [capNLAux_false_nil_inv rest h2, h1]

/-- A suffix of two non-newline characters of the capper's output is a
suffix of the input. -/
theorem capNLAux_suffix_pair :
    ∀ (l : List Char) (b : Bool) (x y : Char), x ≠ '\n' → y ≠ '\n' →
      [x, y] <:+ capNLAux b l → [x, y] <:+ l := by
  refine list_strong_ind (fun l => ∀ (b : Bool) (x y : Char), x ≠ '\n' → y ≠ '\n' →
    [x, y] <:+ capNLAux b l → [x, y] <:+ l) ?_
  intro l ih b x y hx hy hs
  match l with
  | [] =>
    rw [show capNLAux b [] = [] from (by cases b <;> rfl)] at hs
    have hlen := hs.sublist.length_le
    simp at hlen
  | a :: rest =>
    rw [capNLAux_cons] at hs
    by_cases ha : a = '\n'
    · subst ha
      rw [if_pos rfl] at hs
      cases b with
      | true =>
        rw [if_pos rfl] at hs
        exact (ih rest (by simp only [List.length_cons]; omega)
          true x y hx hy hs).trans (List.suffix_cons _ _)
      | false =>
        rw [if_neg (fun hcon => Bool.noConfusion hcon)] at hs
        cases rest with
        | nil =>
          have hlen := hs.sublist.length_le
          simp at hlen
        | cons c2 rest2 =>
          have hred : (match c2 :: rest2 with
              | [] => ['\n']
              | c2 :: rest2 =>
                if c2 = '\n' then '\n' :: '\n' :: capNLAux true rest2
                else '\n' :: capNLAux false (c2 :: rest2)) =
              (if c2 = '\n' then '\n' :: '\n' :: capNLAux true rest2
               else '\n' :: capNLAux false (c2 :: rest2)) := rfl
          rw [hred] at hs
          by_cases hc2 : c2 = '\n'
          · subst hc2
            rw [if_pos rfl] at hs
            rcases List.suffix_cons_iff.mp hs with he | hs2
            · injection he with he1 _
              exact absurd he1 hx
            rcases List.suffix_cons_iff.mp hs2 with he | hs3
            · injection he with he1 _
              exact absurd he1 hx
            · have hr := ih rest2 (by simp only [List.length_cons]; omega)
                true x y hx hy hs3
              exact hr.trans ((List.suffix_cons _ _).trans (List.suffix_cons _ _))
          · rw [if_neg hc2] at hs
            rcases List.suffix_cons_iff.mp hs with he | hs2
            · injection he with he1 _
              exact absurd he1 hx
            · have hr := ih (c2 :: rest2) (by simp only [List.length_cons]; omega)
                false x y hx hy hs2
              exact hr.trans (List.suffix_cons _ _)
    · rw [if_neg ha] at hs
      rcases List.suffix_cons_iff.mp hs with he | hs2
      · injection he with he1 he2
        have hr : rest = [y] := capNLAux_false_singleton rest y hy he2.symm
        rw [hr, ← he1]
      · have hr := ih rest (by simp only [List.length_cons]; omega)
          false x y hx hy hs2
        exact hr.trans (List.suffix_cons _ _)

/-- The Boolean prefix test agrees with list prefixing. -/
theorem isPrefixB_iff : ∀ (pat l : List Char), isPrefixB pat l = true ↔ pat <+: l := by
  intro pat
  induction pat with
  | nil =>
    intro l
    simp [isPrefixB, List.nil_prefix]
  | cons p ps ih =>
    intro l
    cases l with
    | nil =>
      simp only [isPrefixB]
      constructor
      · intro h; cases h
      · intro h
        have hlen := h.length_le
        simp at hlen
    | cons c rest =>
      rw [show isPrefixB (p :: ps) (c :: rest) = ((p == c) && isPrefixB ps rest) from rfl]
      rw [Bool.and_eq_true, List.cons_prefix_iff]
      constructor
      · rintro ⟨h1, h2⟩
        exact ⟨eq_of_beq h1, (ih rest).mp h2⟩
      · rintro ⟨h1, h2⟩
        exact ⟨by rw [h1]; exact beq_self_eq_true c, (ih rest).mpr h2⟩

/-- The Boolean substring test agrees with contiguous containment. -/
theorem isSubstring_iff (pat : List Char) :
    ∀ (l : List Char), isSubstring pat l = true ↔ pat <:+: l := by
  intro l
  induction l with
  | nil =>
    rw [show isSubstring pat [] = isPrefixB pat [] from rfl]
    rw [isPrefixB_iff]
    constructor
    · intro h
      exact h.isInfix
    · intro h
      have hlen := h.sublist.length_le
      simp at hlen
      rw [hlen]
  | cons c rest ih =>
    rw [show isSubstring pat (c :: rest) = (isPrefixB pat (c :: rest) || isSubstring pat rest)
      from rfl]
    rw [Bool.or_eq_true, isPrefixB_iff, ih, List.infix_cons_iff]


/-- The final strip of the pipeline is vacuous: the capper's output on the
collapsed, stripped content already has no outer whitespace. -/
theorem cleanChars_peel (l : List Char) :
    cleanChars l = capNL (collapseTrailQuotes (pyStrip (replNBSP (replBulletTwoSpace
      (replBulletTab (replTab (replTabBullet (replCR (replCRLF (nfkcL l)))))))))) := by
  unfold cleanChars
  apply pyStrip_eq_self
  exact capNL_outerWS _ (cTQ_outerWS _ (hasOuterWS_pyStrip _))

/-- The pipeline's output has no carriage return. -/
theorem cleanChars_no_cr (l : List Char) : '\x0d' ∉ cleanChars l := by
  intro hm
  rw [cleanChars_peel] at hm
  rcases mem_capNLAux _ false _ hm with h1 | h1
  · rcases mem_collapseTrailQuotes _ _ h1 with h2 | h2
    · have h3 := mem_pyStrip _ _ h2
      rcases mem_replNBSP _ _ h3 with h4 | h4
      · rcases mem_replBulletTwoSpace _ _ h4 with h5 | h5
        · rcases mem_replBulletTab _ _ h5 with h6 | h6
          · rcases mem_replTab _ _ h6 with h7 | h7
            · rcases mem_replTabBullet _ _ h7 with h8 | h8
              · exact replCR_no_cr _ h8
              · exact absurd h8 (by decide)
            · exact absurd h7 (by decide)
          · rcases h6 with h6 | h6 <;> exact absurd h6 (by decide)
        · rcases h5 with h5 | h5 <;> exact absurd h5 (by decide)
      · exact absurd h4 (by decide)
    · exact absurd h2 (by decide)
  · exact absurd h1 (by decide)

/-- The pipeline's output has no tab. -/
theorem cleanChars_no_tab (l : List Char) : '\t' ∉ cleanChars l := by
  intro hm
  rw [cleanChars_peel] at hm
  rcases mem_capNLAux _ false _ hm with h1 | h1
  · rcases mem_collapseTrailQuotes _ _ h1 with h2 | h2
    · have h3 := mem_pyStrip _ _ h2
      rcases mem_replNBSP _ _ h3 with h4 | h4
      · rcases mem_replBulletTwoSpace _ _ h4 with h5 | h5
        · rcases mem_replBulletTab _ _ h5 with h6 | h6
          · exact replTab_no_tab _ h6
          · rcases h6 with h6 | h6 <;> exact absurd h6 (by decide)
        · rcases h5 with h5 | h5 <;> exact absurd h5 (by decide)
      · exact absurd h4 (by decide)
    · exact absurd h2 (by decide)
  · exact absurd h1 (by decide)

/-- The pipeline's output has no non-breaking space. -/
theorem cleanChars_no_nbsp (l : List Char) : '\u00a0' ∉ cleanChars l := by
  intro hm
  rw [cleanChars_peel] at hm
  rcases mem_capNLAux _ false _ hm with h1 | h1
  · rcases mem_collapseTrailQuotes _ _ h1 with h2 | h2
    · have h3 := mem_pyStrip _ _ h2
      exact replNBSP_no_nbsp _ h3
    · exact absurd h2 (by decide)
  · exact absurd h1 (by decide)

/-- On outputs of the pipeline with no bullet-space-space substring, a
second pipeline run changes nothing. -/
theorem cleanChars_idem (l : List Char)
    (h : ¬ (['•', ' ', ' '] <:+: cleanChars l)) :
    cleanChars (cleanChars l) = cleanChars l := by
  have hcr := cleanChars_no_cr l
  have htab := cleanChars_no_tab l
  have hnb := cleanChars_no_nbsp l
  have houter : hasOuterWS (cleanChars l) = false := by
    unfold cleanChars
    exact hasOuterWS_pyStrip _
  have htriple : ¬ (['\n', '\n', '\n'] <:+: cleanChars l) := by
    rw [cleanChars_peel]
    exact fun hi => capNLAux_noTriple _ false hi
  have hquote : ¬ (['"', '"'] <:+ cleanChars l) := by
    rw [cleanChars_peel]
    intro hs
    exact cTQ_no_quotepair_suffix _
      (capNLAux_suffix_pair _ false '"' '"' (by decide) (by decide) hs)
  have htripleB : hasTripleNL (cleanChars l) = false := by
    rw [← Bool.not_eq_true, hasTripleNL_iff]
    exact htriple
  show pyStrip (capNL (collapseTrailQuotes (pyStrip (replNBSP (replBulletTwoSpace
    (replBulletTab (replTab (replTabBullet (replCR (replCRLF
      (nfkcL (cleanChars l)))))))))))) = cleanChars l
  rw [nfkcL_eq_self _ hnb, replCRLF_eq_self _ hcr, replCR_eq_self _ hcr,
    replTabBullet_eq_self _ htab, replTab_eq_self _ htab, replBulletTab_eq_self _ htab,
    replBulletTwoSpace_eq_self _ h, replNBSP_eq_self _ hnb, pyStrip_eq_self _ houter,
    cTQ_eq_self _ hquote, capNL_eq_self _ htripleB, pyStrip_eq_self _ houter]

/-- C1: amended idempotence. `clean_text` applied to its own output changes
nothing, provided that output contains no bullet followed by two spaces;
without that proviso idempotence fails (see the counterexample), because the
bullet-two-space replacement can keep shortening longer space runs after a
bullet on each application. -/
theorem clean_text_idem (s : String)
    (h : isSubstring ['•', ' ', ' '] (clean_text s).data = false) :
    clean_text (clean_text s) = clean_text s := by
  have hdata : (clean_text s).data = cleanChars s.data := by
    unfold clean_text
    rw [mk_data_eq]
  rw [hdata] at h
  have hno : ¬ (['•', ' ', ' '] <:+: cleanChars s.data) := by
    intro hi
    rw [(isSubstring_iff _ _).mpr hi] at h
    cases h
  have hmain := cleanChars_idem s.data hno
  show String.mk (cleanChars (clean_text s).data) = clean_text s
  rw [hdata, hmain]
  rfl

/-- Witness: a concrete bullet-free input on which the amended idempotence
theorem applies. -/
theorem clean_text_idem_witness :
    isSubstring ['•', ' ', ' '] (clean_text " a\n\n\n\nb ").data = false ∧
      clean_text (clean_text " a\n\n\n\nb ") = clean_text " a\n\n\n\nb " :=
  ⟨by decide, clean_text_idem " a\n\n\n\nb " (by decide)⟩

/-- Counterexample to unconditional idempotence: on a bullet followed by
three spaces, the first application leaves a bullet and two spaces, and the
second application shortens it further, so the outputs differ. -/
theorem clean_text_not_idem :
    (clean_text (clean_text (String.mk ['•', ' ', ' ', ' ', 'x']))
      == clean_text (String.mk ['•', ' ', ' ', ' ', 'x'])) = false := by
  decide

end ChatGPT
